import Mathlib

/-!
# Verification of the rag-gateway ingestion and retrieval core

Shallow embedding of the `rag_gateway` Python package (chunking, chunk
identity, embedding batcher, ingestion orchestrator, HTTP crawler, RRF
fusion, scheduled-crawl lock handling) together with proofs of the spec
claims C1 through C10.

Modelling conventions:
* Python `str` becomes `String` (`len` = `String.length`, i.e. code points).
* Python machine-free `int` becomes `Int` where negative values matter
  (validation) and `Nat` once validated.
* Python `float` scores/times are modelled as `Rat` (exact field
  arithmetic; the claims under study involve only sums of reciprocals and
  comparisons that are insensitive to rounding).
* External services (embedding service, vector store, keyword index, HTTP
  fetching, HTML parsing, the filesystem and clock) are passed in as
  explicit oracle functions / explicit state, mirroring the narrow
  interfaces of spec section 6.
* Fallible code returns `Except String`.
-/

set_option autoImplicit false

universe u v

namespace RagGateway

/-! ## Python string helpers (`str.strip`, whitespace classes) -/

/-- Characters stripped by Python `str.strip()` (ASCII whitespace; the
additional Unicode space code points do not occur in the texts handled by
the claims and behave identically for the length bounds proved here). -/
def isPySpace (c : Char) : Bool :=
  c = ' ' || c = '\t' || c = '\n' || c = '\r' || c = Char.ofNat 11 || c = Char.ofNat 12

def pyStripChars (l : List Char) : List Char :=
  ((l.dropWhile isPySpace).reverse.dropWhile isPySpace).reverse

/-- Python `s.strip()`. -/
def pyStrip (s : String) : String :=
  String.mk (pyStripChars s.data)

/-- Python slicing `s[:n]` (by code points). -/
def charTake (s : String) (n : Nat) : String :=
  String.mk (s.data.take n)

/-- Structural worker for Python `str.split(sep)`: the fuel is the
length of the remaining text, which bounds the number of steps. -/
def pySplitGo (sep : List Char) : Nat → List Char → List (List Char)
  | _, [] => [[]]
  | 0, l => [l]
  | fuel + 1, c :: rest =>
      if sep.isPrefixOf (c :: rest) then
        [] :: pySplitGo sep fuel ((c :: rest).drop sep.length)
      else
        match pySplitGo sep fuel rest with
        | [] => [[c]]
        | h :: t => (c :: h) :: t

/-- Python `s.split(sep)` for a non-empty separator: split at each
non-overlapping occurrence, scanning left to right, keeping empty
pieces (Python raises on an empty separator; callers never pass one). -/
def pySplit (s sep : String) : List String :=
  if sep.data = [] then [s]
  else (pySplitGo sep.data s.data.length s.data).map String.mk

/-- Structural worker for Python `str.replace(old, new)`. -/
def pyReplaceGo (old new : List Char) : Nat → List Char → List Char
  | _, [] => []
  | 0, l => l
  | fuel + 1, c :: rest =>
      if old.isPrefixOf (c :: rest) then
        new ++ pyReplaceGo old new fuel ((c :: rest).drop old.length)
      else
        c :: pyReplaceGo old new fuel rest

/-- Python `s.replace(old, new)` for a non-empty pattern: replace
non-overlapping occurrences left to right (callers never pass an empty
pattern). -/
def pyReplace (s old new : String) : String :=
  if old.data = [] then s
  else String.mk (pyReplaceGo old.data new.data s.data.length s.data)

/-! ## `core/text_processing.py`: `normalize_whitespace` -/

/-- `re.sub(r"\r\n?", "\n", s)`: each CR, optionally followed by LF,
becomes a single LF. -/
def replaceCR : List Char → List Char
  | [] => []
  | '\r' :: '\n' :: rest => '\n' :: replaceCR rest
  | '\r' :: rest => '\n' :: replaceCR rest
  | c :: rest => c :: replaceCR rest

/-- `re.sub(r"[ \t]+\n", "\n", s)`: delete runs of spaces/tabs that
directly precede a newline. -/
def stripLineTrailing (l : List Char) : List Char :=
  l.foldr (fun c acc => if (c = ' ' || c = '\t') && acc.head? = some '\n' then acc else c :: acc) []

/-- `re.sub(r"\n{3,}", "\n\n", s)`: collapse runs of three or more
newlines down to exactly two. -/
def collapseNewlines : List Char → List Char
  | '\n' :: '\n' :: '\n' :: rest => collapseNewlines ('\n' :: '\n' :: rest)
  | c :: rest => c :: collapseNewlines rest
  | [] => []

/-- `core/text_processing.py: normalize_whitespace`. -/
def normalize_whitespace (s : String) : String :=
  if s.data = [] then ""
  else String.mk (pyStripChars (collapseNewlines (stripLineTrailing (replaceCR s.data))))

/-! ## List slicing shared by several components -/

/-- Structural helper for `chunksOf`: the fuel bounds the number of
slices and is instantiated with the list length. -/
def chunksOfAux {α : Type u} (n : Nat) : Nat → List α → List (List α)
  | 0, _ => []
  | _, [] => []
  | fuel + 1, x :: xs => (x :: xs).take n :: chunksOfAux n fuel ((x :: xs).drop n)

/-- Group a list into consecutive sublists of `n` elements (`n > 0`).
Mirrors Python `range(0, len(l), n)` slicing; returns `[]` for `n = 0`
(where Python `range` would raise). -/
def chunksOf {α : Type u} (n : Nat) (l : List α) : List (List α) :=
  if n = 0 then [] else chunksOfAux n l.length l

/-! ## SHA-256 (`hashlib.sha256(..).hexdigest()`), over UTF-8 bytes

Executable implementation of FIPS 180-4 SHA-256 on `Nat` words reduced
modulo `2^32`, used by `ingestion/pipeline.py: sha256_hex`. -/

namespace Sha256

def w32 (x : Nat) : Nat := x % 4294967296

def rotr (n x : Nat) : Nat := w32 ((x >>> n) ||| (x <<< (32 - n)))

def bigSigma0 (x : Nat) : Nat := rotr 2 x ^^^ rotr 13 x ^^^ rotr 22 x

def bigSigma1 (x : Nat) : Nat := rotr 6 x ^^^ rotr 11 x ^^^ rotr 25 x

def smallSigma0 (x : Nat) : Nat := rotr 7 x ^^^ rotr 18 x ^^^ (x >>> 3)

def smallSigma1 (x : Nat) : Nat := rotr 17 x ^^^ rotr 19 x ^^^ (x >>> 10)

def ch (x y z : Nat) : Nat := (x &&& y) ^^^ ((x ^^^ 4294967295) &&& z)

def maj (x y z : Nat) : Nat := (x &&& y) ^^^ (x &&& z) ^^^ (y &&& z)

/-- The 64 round constants of FIPS 180-4 §4.2.2 (fractional parts of
the cube roots of the first 64 primes), in decimal. -/
def K : List Nat :=
  [1116352408, 1899447441, 3049323471, 3921009573, 961987163, 1508970993,
   2453635748, 2870763221, 3624381080, 310598401, 607225278, 1426881987,
   1925078388, 2162078206, 2614888103, 3248222580, 3835390401, 4022224774,
   264347078, 604807628, 770255983, 1249150122, 1555081692, 1996064986,
   2554220882, 2821834349, 2952996808, 3210313671, 3336571891, 3584528711,
   113926993, 338241895, 666307205, 773529912, 1294757372, 1396182291,
   1695183700, 1986661051, 2177026350, 2456956037, 2730485921, 2820302411,
   3259730800, 3345764771, 3516065817, 3600352804, 4094571909, 275423344,
   430227734, 506948616, 659060556, 883997877, 958139571, 1322822218,
   1537002063, 1747873779, 1955562222, 2024104815, 2227730452, 2361852424,
   2428436474, 2756734187, 3204031479, 3329325298]

/-- The initial hash state of FIPS 180-4 §5.3.3, in decimal. -/
def H0 : List Nat :=
  [1779033703, 3144134277, 1013904242, 2773480762,
   1359893119, 2600822924, 528734635, 1541459225]

/-- Big-endian 8-byte encoding of a (bit-) length. -/
def be64 (n : Nat) : List Nat :=
  [(n >>> 56) &&& 255, (n >>> 48) &&& 255, (n >>> 40) &&& 255, (n >>> 32) &&& 255,
   (n >>> 24) &&& 255, (n >>> 16) &&& 255, (n >>> 8) &&& 255, n &&& 255]

/-- SHA-256 padding: `0x80`, zeros to 56 mod 64, then the 64-bit
big-endian bit length. -/
def padMessage (msg : List Nat) : List Nat :=
  let len := msg.length
  let k := (119 - (len % 64)) % 64
  msg ++ 128 :: List.replicate k 0 ++ be64 (8 * len)

/-- Group bytes into big-endian 32-bit words. -/
def toWords : List Nat → List Nat
  | b0 :: b1 :: b2 :: b3 :: rest =>
      ((b0 <<< 24) ||| (b1 <<< 16) ||| (b2 <<< 8) ||| b3) :: toWords rest
  | _ => []

/-- Extend a 16-word block to the 64-word message schedule. -/
def schedule (init16 : List Nat) : List Nat :=
  (List.range 48).foldl
    (fun w _ =>
      let t := w.length
      w ++ [w32 (w.getD (t - 16) 0 + smallSigma0 (w.getD (t - 15) 0) +
                 w.getD (t - 7) 0 + smallSigma1 (w.getD (t - 2) 0))])
    init16

def compressStep (st : List Nat) (kw : Nat × Nat) : List Nat :=
  match st with
  | [a, b, c, d, e, f, g, h] =>
      let t1 := w32 (h + bigSigma1 e + ch e f g + kw.1 + kw.2)
      let t2 := w32 (bigSigma0 a + maj a b c)
      [w32 (t1 + t2), a, b, c, w32 (d + t1), e, f, g]
  | other => other

def processBlock (h : List Nat) (block : List Nat) : List Nat :=
  let ws := schedule block
  let st := (K.zip ws).foldl compressStep h
  (h.zip st).map (fun p => w32 (p.1 + p.2))

def sha256Words (msg : List Nat) : List Nat :=
  (chunksOf 16 (toWords (padMessage msg))).foldl processBlock H0

def hexDigit (n : Nat) : Char :=
  if n < 10 then Char.ofNat (48 + n) else Char.ofNat (87 + n)

def toHex8 (x : Nat) : List Char :=
  (List.range 8).map (fun i => hexDigit ((x >>> (28 - 4 * i)) &&& 15))

/-- UTF-8 encoding of one character, as byte values. -/
def utf8EncodeCharNat (c : Char) : List Nat :=
  let n := c.toNat
  if n < 128 then [n]
  else if n < 2048 then [192 + n / 64, 128 + n % 64]
  else if n < 65536 then [224 + n / 4096, 128 + (n / 64) % 64, 128 + n % 64]
  else [240 + n / 262144, 128 + (n / 4096) % 64, 128 + (n / 64) % 64, 128 + n % 64]

def utf8Bytes (s : String) : List Nat :=
  (s.data.map utf8EncodeCharNat).flatten

end Sha256

/-- `ingestion/pipeline.py: sha256_hex` — lowercase hex digest of the
UTF-8 encoding of `s`. -/
def sha256_hex (s : String) : String :=
  String.mk ((Sha256.sha256Words (Sha256.utf8Bytes s)).map Sha256.toHex8).flatten

/-! ## `core/chunking.py`: `chunk_text` -/

/-- Accumulator of the two greedy packing loops: chunks emitted so far
and the chunk currently being built. -/
structure PackState where
  chunks : List String
  current : String
deriving DecidableEq, Repr

/-- Body of the sentence packing loop (`for sent in sentences`). -/
def packSentence (maxc : Nat) (st : PackState) (sent : String) : PackState :=
  if st.current.length + sent.length + 1 ≤ maxc then
    { st with current := if st.current ≠ "" then pyStrip (st.current ++ " " ++ sent) else sent }
  else
    { chunks := if st.current ≠ "" then st.chunks ++ [st.current] else st.chunks
      current := sent }

/-- `para.replace('. ', '.|').split('|')`, stripped and with falsy
entries dropped. -/
def splitSentences (para : String) : List String :=
  ((pySplit (pyReplace para ". " ".|") "|").map pyStrip).filter (fun s => s ≠ "")

/-- `t.split('\n\n')`, stripped and with falsy entries dropped. -/
def splitParagraphs (t : String) : List String :=
  ((pySplit t "\n\n").map pyStrip).filter (fun p => p ≠ "")

/-- The recurring `if current_chunk: chunks.append(current_chunk)`
idiom: the emitted chunks once the pending chunk (if any) is flushed. -/
def flushState (st : PackState) : List String :=
  if st.current ≠ "" then st.chunks ++ [st.current] else st.chunks

/-- Body of the paragraph packing loop (`for para in paragraphs`). -/
def packParagraph (maxc : Nat) (st : PackState) (para : String) : PackState :=
  if st.current.length + para.length + 2 ≤ maxc then
    { st with current := if st.current ≠ "" then pyStrip (st.current ++ "\n\n" ++ para) else para }
  else
    if maxc < para.length then
      (splitSentences para).foldl (packSentence maxc) { chunks := flushState st, current := "" }
    else
      { chunks := flushState st, current := para }

/-- Packing stage of `chunk_text`, applied to the already-normalized
text with validated `max_chars`. -/
def chunk_text_core (t : String) (maxc : Nat) : List String :=
  if t = "" then []
  else if t.length ≤ maxc then [t]
  else if flushState ((splitParagraphs t).foldl (packParagraph maxc) ⟨[], ""⟩) = [] then
    [charTake t maxc]
  else flushState ((splitParagraphs t).foldl (packParagraph maxc) ⟨[], ""⟩)

/-- `core/chunking.py: chunk_text`. `ValueError` becomes `Except.error`. -/
def chunk_text (text : String) (max_chars overlap_chars : Int) : Except String (List String) :=
  if max_chars ≤ 0 then .error "max_chars must be positive"
  else if overlap_chars < 0 then .error "overlap_chars must be non-negative"
  else if overlap_chars ≥ max_chars then .error "overlap_chars must be less than max_chars"
  else .ok (chunk_text_core (normalize_whitespace text) max_chars.toNat)

/-! ## `core/models.py` records -/

/-- `core/models.py: IngestDocument` (pydantic model; `source_type`
defaults to "official_docs"). -/
structure IngestDocument where
  doc_id : Option String := none
  title : String
  source_type : String := "official_docs"
  url_or_path : String
  vendor : Option String := none
  product : Option String := none
  version : Option String := none
  date_published : Option String := none
  text : String
deriving DecidableEq, Repr

/-- `core/models.py: ChunkRecord`. -/
structure ChunkRecord where
  chunk_id : String
  chunk_hash : String
  doc_id : String
  title : String
  source_type : String
  url_or_path : String
  vendor : Option String
  product : Option String
  version : Option String
  text : String
deriving DecidableEq, Repr

/-! ## `ingestion/pipeline.py`: `document_to_chunks` -/

/-- Python `a or b` for strings (empty string is falsy). -/
def pyOrStr (a b : String) : String :=
  if a = "" then b else a

/-- Python `a or b` for optional strings (`None` and `""` are falsy). -/
def pyOrOpt (a b : Option String) : Option String :=
  match a with
  | some s => if s = "" then b else some s
  | none => b

/-- Python `a or b` for an optional string with a string fallback. -/
def pyOrOptStr (a : Option String) (b : String) : String :=
  match a with
  | some s => if s = "" then b else s
  | none => b

/-- One `ChunkRecord` built inside the `for i, ch in enumerate(chunks)`
loop of `document_to_chunks`. -/
def mkChunkRecord (doc_id title source_type url_or_path : String)
    (vendor product version : Option String) (i : Nat) (ch : String) : ChunkRecord :=
  let norm := normalize_whitespace ch
  let chash := sha256_hex norm
  let cid := charTake (sha256_hex (doc_id ++ "|" ++ toString i ++ "|" ++ chash)) 32
  { chunk_id := cid, chunk_hash := chash, doc_id := doc_id, title := title
    source_type := source_type, url_or_path := url_or_path
    vendor := vendor, product := product, version := version, text := norm }

/-- `doc.doc_id or sha256_hex(f"{doc.url_or_path}|{doc.title}")[:24]`. -/
def resolved_doc_id (doc : IngestDocument) : String :=
  pyOrOptStr doc.doc_id (charTake (sha256_hex (doc.url_or_path ++ "|" ++ doc.title)) 24)

/-- `ingestion/pipeline.py: document_to_chunks` (a `ValueError` from
`chunk_text` propagates). -/
def document_to_chunks (doc : IngestDocument)
    (default_vendor default_product default_version default_source_type : Option String)
    (max_chars overlap_chars : Int) : Except String (List ChunkRecord) :=
  match chunk_text doc.text max_chars overlap_chars with
  | Except.error e => Except.error e
  | Except.ok chunks =>
      Except.ok (chunks.enum.map (fun p =>
        mkChunkRecord (resolved_doc_id doc) doc.title
          (pyOrStr doc.source_type (pyOrOptStr default_source_type "official_docs"))
          doc.url_or_path
          (pyOrOpt doc.vendor default_vendor) (pyOrOpt doc.product default_product)
          (pyOrOpt doc.version default_version) p.1 p.2))

/-! ## `core/retrieval.py`: `rrf_fuse`

The Python function builds a `dict` mapping each id occurring in some
ranked list to its accumulated score, reading a missing key as `0.0`
(`scores.get(doc_id, 0.0)`).  The dict is modelled as the total function
`String → Rat` that is `0` outside the accumulated keys; `float` scores
are modelled as exact rationals. -/

def rrf_fuse (ranked_lists : List (List String)) (k : Rat) : String → Rat :=
  ranked_lists.foldl
    (fun scores lst =>
      lst.enum.foldl
        (fun sc p => fun i => if i = p.2 then sc p.2 + 1 / (k + (p.1 + 1 : Rat)) else sc i)
        scores)
    (fun _ => 0)

/-! ## `ingestion/service.py`: `batched_embed_many`

`process_batch_adaptive` performs retries with backoff, timeout handling
and recursive halving on oversized payloads; its concurrency and timing
are not part of the shallow embedding.  Its observable interface is the
pair `(batch_idx, vectors-or-None)` it returns for a batch, so it is
modelled by an oracle `embed : Nat → List String → Option (List (List Rat))`
giving the final outcome for each `(batch_idx, batch_texts)` pair
(`none` = permanent failure; the recursive-halving path recombines
successful halves in order or propagates failure, so per batch the
outcome is all-or-nothing).  `asyncio.gather` returns results in task
order, which the code then scatters into `ordered_results` by batch
index and flattens, skipping failed batches. -/

/-- `ordered_results[batch_idx] = vectors` over `raw_results`. -/
def scatterResults (n : Nat) (raw : List (Nat × Option (List (List Rat)))) :
    List (Option (List (List Rat))) :=
  raw.foldl (fun arr p => arr.set p.1 p.2) (List.replicate n none)

/-- Final flattening loop: extend with each non-failed batch, skip
failed ones. -/
def flattenResults (ordered : List (Option (List (List Rat)))) : List (List Rat) :=
  ordered.foldl
    (fun acc o => match o with
      | none => acc
      | some vs => acc ++ vs)
    []

/-- `ingestion/service.py: batched_embed_many`: build indexed batches,
collect the per-batch outcomes in task order, scatter them into
`ordered_results` by batch index, and flatten. -/
def batched_embed_many (embed : Nat → List String → Option (List (List Rat)))
    (texts : List String) (batch_size : Nat) : List (List Rat) :=
  flattenResults
    (scatterResults (chunksOf batch_size texts).enum.length
      ((chunksOf batch_size texts).enum.map (fun p => (p.1, embed p.1 p.2))))

/-! ## Store state (vector store + keyword index, spec section 6)

Both stores are keyed by `chunk_id` with upsert (replace-or-insert)
semantics: qdrant points are keyed by point id, and
`TantivyBM25.upsert_chunks` deletes by `chunk_id` before re-adding.
They are modelled as insertion-ordered association lists. -/

/-- The payload dict written by `ingest_documents` for each point. -/
structure QdrantPayload where
  chunk_id : String
  chunk_hash : String
  doc_id : String
  title : String
  source : String
  source_type : String
  url_or_path : String
  vendor : String
  product : String
  version : String
  text : String
deriving DecidableEq, Repr

/-- `qm.PointStruct(id, vector, payload)`. -/
structure QdrantPoint where
  id : String
  vector : List Rat
  payload : QdrantPayload
deriving DecidableEq, Repr

/-- The keyword-index record dict written by `ingest_documents`. -/
structure TantivyDoc where
  chunk_id : String
  title : String
  source : String
  url_or_path : String
  vendor : String
  product : String
  version : String
  text : String
deriving DecidableEq, Repr

/-- Joint state of the two external stores, each a `chunk_id`-keyed map
(the stores are keyed sets; no ordering of theirs is ever observed by
the code under study). -/
structure StoreState where
  qdrant : String → Option QdrantPoint
  tantivy : String → Option TantivyDoc

/-- Keyed replace-or-insert of one point. -/
def qdrantUpd (m : String → Option QdrantPoint) (p : QdrantPoint) :
    String → Option QdrantPoint :=
  fun x => if x = p.id then some p else m x

/-- Keyed replace-or-insert of one keyword record. -/
def tantivyUpd (m : String → Option TantivyDoc) (t : TantivyDoc) :
    String → Option TantivyDoc :=
  fun x => if x = t.chunk_id then some t else m x

/-- `QdrantVectorStore.upsert_points`: replace-or-insert each point by
its id, in order. -/
def upsert_points (st : StoreState) (pts : List QdrantPoint) : StoreState :=
  { st with qdrant := pts.foldl qdrantUpd st.qdrant }

/-- `TantivyBM25.upsert_chunks` (delete by `chunk_id`, then add). -/
def upsert_chunks (st : StoreState) (docs : List TantivyDoc) : StoreState :=
  { st with tantivy := docs.foldl tantivyUpd st.tantivy }

/-- `QdrantVectorStore.get_payloads`: the payload map for the requested
ids that exist in the collection (points written by this orchestrator
always carry a non-empty payload, so the `p.payload or {}` fallback and
the orchestrator's dict-truthiness test coincide with `Option`). -/
def get_payloads (st : StoreState) (ids : List String) : String → Option QdrantPayload :=
  fun id => if id ∈ ids then (st.qdrant id).map (fun p => p.payload) else none

/-! ## `ingestion/service.py`: `ingest_documents` -/

/-- The result counters of `ingest_documents`. -/
structure IngestCounts where
  documents : Nat
  chunks : Nat
  points : Nat
  skipped : Nat
  updated : Nat
deriving DecidableEq, Repr

/-- The incremental skip/update decision loop: blocks of 256 ids are
looked up via `get_payloads`; a chunk whose stored `chunk_hash` matches
is skipped, everything else is queued for processing. -/
def incrementalPass (st : StoreState) (chunks : List ChunkRecord) (skip_unchanged : Bool) :
    Nat × List ChunkRecord :=
  (chunksOf 256 chunks).foldl
    (fun acc block =>
      let existing := get_payloads st (block.map (fun c => c.chunk_id))
      block.foldl
        (fun acc2 c =>
          if skip_unchanged then
            match existing c.chunk_id with
            | some payload =>
                if payload.chunk_hash = c.chunk_hash then (acc2.1 + 1, acc2.2)
                else (acc2.1, acc2.2 ++ [c])
            | none => (acc2.1, acc2.2 ++ [c])
          else (acc2.1, acc2.2 ++ [c]))
        acc)
    (0, [])

/-- The vector-store payload dict built per processed chunk. -/
def mkPayload (c : ChunkRecord) : QdrantPayload :=
  { chunk_id := c.chunk_id, chunk_hash := c.chunk_hash, doc_id := c.doc_id
    title := c.title, source := c.source_type, source_type := c.source_type
    url_or_path := c.url_or_path
    vendor := pyOrOptStr c.vendor "", product := pyOrOptStr c.product ""
    version := pyOrOptStr c.version "", text := c.text }

/-- The keyword-index record dict built per processed chunk. -/
def mkTantivyDoc (c : ChunkRecord) : TantivyDoc :=
  { chunk_id := c.chunk_id, title := c.title, source := c.source_type
    url_or_path := c.url_or_path
    vendor := pyOrOptStr c.vendor "", product := pyOrOptStr c.product ""
    version := pyOrOptStr c.version "", text := c.text }

/-- The `for c, v in zip(batch, vectors)` pairing of one write-batch
(`zip` truncates to the shorter side when the embedder returned fewer
vectors than texts). -/
def writeBatchPairs (embed : Nat → List String → Option (List (List Rat)))
    (embed_batch_size : Nat) (batch : List ChunkRecord) : List (ChunkRecord × List Rat) :=
  batch.zip (batched_embed_many embed (batch.map (fun c => c.text)) embed_batch_size)

/-- The vector-store points upserted for one write-batch. -/
def writeBatchPoints (embed : Nat → List String → Option (List (List Rat)))
    (embed_batch_size : Nat) (batch : List ChunkRecord) : List QdrantPoint :=
  (writeBatchPairs embed embed_batch_size batch).map
    (fun p => QdrantPoint.mk p.1.chunk_id p.2 (mkPayload p.1))

/-- The keyword-index records upserted for one write-batch. -/
def writeBatchTantivy (embed : Nat → List String → Option (List (List Rat)))
    (embed_batch_size : Nat) (batch : List ChunkRecord) : List TantivyDoc :=
  (writeBatchPairs embed embed_batch_size batch).map (fun p => mkTantivyDoc p.1)

/-- One write-batch of the processing loop: embed the batch texts,
pair chunks with vectors via `zip`, and upsert both stores. -/
def processWriteBatch (embed : Nat → List String → Option (List (List Rat)))
    (embed_batch_size : Nat) (acc : StoreState × Nat × Nat) (batch : List ChunkRecord) :
    StoreState × Nat × Nat :=
  let points := writeBatchPoints embed embed_batch_size batch
  let tdocs := writeBatchTantivy embed embed_batch_size batch
  let st1 := upsert_points acc.1 points
  let st2 := upsert_chunks st1 tdocs
  (st2, acc.2.1 + points.length, acc.2.2 + points.length)

/-- The skip/update split: `incrementalPass` when incremental mode is
on, otherwise everything is processed. -/
def skipSplit (st : StoreState) (chunks : List ChunkRecord)
    (incremental skip_unchanged : Bool) : Nat × List ChunkRecord :=
  if incremental then incrementalPass st chunks skip_unchanged else (0, chunks)

/-- The write loop over the write-batches of `to_process`, accumulating
the store state, `total_points` and `updated`. -/
def runWriteLoop (embed : Nat → List String → Option (List (List Rat)))
    (embed_batch_size : Nat) (st : StoreState) (batches : List (List ChunkRecord)) :
    StoreState × Nat × Nat :=
  batches.foldl (processWriteBatch embed embed_batch_size) (st, 0, 0)

/-- The side-effecting stage of `ingest_documents`, once all chunk
records have been produced. -/
def ingest_core (st : StoreState)
    (embed : Nat → List String → Option (List (List Rat)))
    (ndocs : Nat) (chunks : List ChunkRecord) (batch_size : Nat)
    (incremental skip_unchanged dry_run : Bool)
    (embed_batch_size : Nat) : IngestCounts × StoreState :=
  if chunks = [] then (⟨ndocs, 0, 0, 0, 0⟩, st)
  else if dry_run then (⟨ndocs, chunks.length, 0, 0, 0⟩, st)
  else if (skipSplit st chunks incremental skip_unchanged).2 = [] then
    (⟨ndocs, chunks.length, 0, (skipSplit st chunks incremental skip_unchanged).1, 0⟩, st)
  else
    (⟨ndocs, chunks.length,
      (runWriteLoop embed embed_batch_size st
        (chunksOf batch_size (skipSplit st chunks incremental skip_unchanged).2)).2.1,
      (skipSplit st chunks incremental skip_unchanged).1,
      (runWriteLoop embed embed_batch_size st
        (chunksOf batch_size (skipSplit st chunks incremental skip_unchanged).2)).2.2⟩,
     (runWriteLoop embed embed_batch_size st
       (chunksOf batch_size (skipSplit st chunks incremental skip_unchanged).2)).1)

/-- `ingestion/service.py: ingest_documents`, with the store state and
the per-batch embedding outcome oracle passed explicitly.  Returns the
counters together with the final store state; a chunking `ValueError`
propagates. -/
def ingest_documents (st : StoreState)
    (embed : Nat → List String → Option (List (List Rat)))
    (documents : List IngestDocument)
    (default_vendor default_product default_version default_source_type : Option String)
    (max_chars overlap_chars : Int) (batch_size : Nat)
    (incremental skip_unchanged dry_run : Bool)
    (embed_batch_size : Nat) : Except String (IngestCounts × StoreState) :=
  match documents.mapM (fun doc =>
    document_to_chunks doc default_vendor default_product default_version default_source_type
      max_chars overlap_chars) with
  | Except.error e => Except.error e
  | Except.ok chunkLists =>
      Except.ok (ingest_core st embed documents.length chunkLists.flatten batch_size
        incremental skip_unchanged dry_run embed_batch_size)

/-! ## `ingestion/crawlers/http_crawler.py`

The network, the HTML parser and Python library calls are oracles:
`fetch url` is the outcome of one HTTP GET (`none` = any per-request
failure, `some (raw_html, plain_text)` = `response.text` and
`html_to_text` of it), `links url raw` is the document-order list of
`urljoin(url, href).split('#')[0]` values BeautifulSoup finds,
`extractTitle url raw` is the `<title>`-regex-with-url-fallback title,
`parse` is `urllib.parse.urlparse` restricted to the fields the code
reads, and `research pat url` is `re.search(pat, url) is not None`.
The `while` loop is modelled step-indexed by a fuel argument: every
property proved below holds for every number of loop iterations.  The
model additionally logs each `(url, depth)` pair handed to the fetcher
in a ghost `requests` field. -/

/-- Keyed replace-or-insert on an association list (Python-dict
semantics: replacing keeps the original position; used for the
insertion-ordered `fetched_content` dict). -/
def dictUpsert {β : Type} (d : List (String × β)) (k : String) (v : β) : List (String × β) :=
  if d.any (fun e => e.1 = k) then d.map (fun e => if e.1 = k then (k, v) else e)
  else d ++ [(k, v)]

/-- The fields of a `urllib.parse.urlparse` result read by
`should_skip_url`. -/
structure UrlParts where
  scheme : String
  netloc : String
deriving DecidableEq, Repr

/-- `core/models.py: CrawlHTTP`. -/
structure CrawlHTTP where
  start_urls : List String
  allowed_domains : List String
  allowed_url_prefixes : Option (List String) := none
  exclude_url_patterns : Option (List String) := none
  max_pages : Option Int := none
  max_depth : Option Int := none
deriving DecidableEq, Repr

/-- Python `a or b` for an optional int with an int fallback (`None`
and `0` are falsy). -/
def pyOrOptInt (a : Option Int) (b : Int) : Int :=
  match a with
  | some n => if n = 0 then b else n
  | none => b

/-- `http_crawler.py: should_skip_url`. -/
def should_skip_url (parse : String → Option UrlParts) (research : String → String → Bool)
    (url : String) (allowed_domains : List String)
    (allowed_prefs exclude_patterns : List String) : Bool :=
  match parse url with
  | none => true
  | some u =>
    if ¬ (u.scheme = "http" ∨ u.scheme = "https") then true
    else if u.netloc ≠ "" ∧ ¬ u.netloc ∈ allowed_domains then true
    else if allowed_prefs ≠ [] ∧ ¬ allowed_prefs.any (fun p => url.startsWith p) then true
    else exclude_patterns.any (fun pat => research pat url)

/-- The external-world oracles of one crawl. -/
structure CrawlEnv where
  fetch : String → Option (String × String)
  links : String → String → List String
  extractTitle : String → String → String
  parse : String → Option UrlParts
  research : String → String → Bool

/-- Mutable state of the crawl loop (`visited`, `fetched_content`,
`queue`), plus the ghost request log. -/
structure CrawlState where
  visited : List String
  fetched : List (String × (String × String))
  queue : List (String × Nat)
  requests : List (String × Nat)
deriving Repr

/-- The batch-collection loop: pop up to `batch_size` queue entries,
skipping unvisited URLs that fail `should_skip_url`, and mark the rest
visited.  Returns the batch (with depths), the new visited set and the
remaining queue. -/
def popBatch (skip : String → Bool) :
    Nat → List String → List (String × Nat) →
    List (String × Nat) × List String × List (String × Nat)
  | 0, visited, queue => ([], visited, queue)
  | _ + 1, visited, [] => ([], visited, [])
  | n + 1, visited, (url, depth) :: rest =>
      if ¬ url ∈ visited ∧ skip url then popBatch skip n visited rest
      else
        ((url, depth) ::
            (popBatch skip n (if url ∈ visited then visited else url :: visited) rest).1,
         (popBatch skip n (if url ∈ visited then visited else url :: visited) rest).2.1,
         (popBatch skip n (if url ∈ visited then visited else url :: visited) rest).2.2)

/-- Processing of one fetched batch element: store pages with at least
200 characters of extracted text, and from stored pages within the
depth budget collect next-depth links, bounded by
`len(fetched_content) + len(new_links) < max_pages`. -/
def processOne (links : String → String → List String) (max_depth max_pages : Int)
    (visited : List String)
    (acc : List (String × (String × String)) × List (String × Nat))
    (item : (String × Nat) × Option (String × String)) :
    List (String × (String × String)) × List (String × Nat) :=
  match item.2 with
  | none => acc
  | some page =>
      if 200 ≤ page.2.length then
        if (item.1.2 : Int) < max_depth ∧ page.1 ≠ "" then
          (dictUpsert acc.1 item.1.1 page,
           (links item.1.1 page.1).foldl
             (fun nls link =>
               if link ≠ "" ∧ ¬ link ∈ visited ∧
                   (((dictUpsert acc.1 item.1.1 page).length + nls.length : Int) < max_pages)
               then nls ++ [(link, item.1.2 + 1)] else nls)
             acc.2)
        else (dictUpsert acc.1 item.1.1 page, acc.2)
      else acc

/-- One iteration of the crawl `while` loop, applied to the already
popped batch `pop = (batch, visited, queue)`: an empty batch is a
`continue`; otherwise the batch is fetched in parallel, the results
rolled into `fetched_content` with next-level links, and the batch
appended to the ghost request log. -/
def crawlStep (env : CrawlEnv) (max_depth max_pages : Int) (st : CrawlState)
    (pop : List (String × Nat) × List String × List (String × Nat)) : CrawlState :=
  if pop.1 = [] then { st with visited := pop.2.1, queue := pop.2.2 }
  else
    { visited := pop.2.1
      fetched := ((pop.1.map (fun p => (p, env.fetch p.1))).foldl
          (processOne env.links max_depth max_pages pop.2.1) (st.fetched, [])).1
      queue := pop.2.2 ++ ((pop.1.map (fun p => (p, env.fetch p.1))).foldl
          (processOne env.links max_depth max_pages pop.2.1) (st.fetched, [])).2
      requests := st.requests ++ pop.1 }

/-- The crawl `while` loop, step-indexed by `fuel`. -/
def crawlLoop (env : CrawlEnv) (skip : String → Bool) (mc : Nat) (max_pages max_depth : Int) :
    Nat → CrawlState → CrawlState
  | 0, st => st
  | fuel + 1, st =>
      if st.queue ≠ [] ∧ (st.fetched.length : Int) < max_pages then
        crawlLoop env skip mc max_pages max_depth fuel
          (crawlStep env max_depth max_pages st
            (popBatch skip (min mc (min st.queue.length (max_pages - st.fetched.length).toNat))
              st.visited st.queue))
      else st

/-- The final state of `crawl_http_docs` after the loop
(`spec.max_pages or max_pages` overriding, skip predicate built from
the spec). -/
def crawl_http_state (env : CrawlEnv) (spec : CrawlHTTP)
    (max_pages max_depth : Int) (max_concurrent fuel : Nat) : CrawlState :=
  let eff_mp := pyOrOptInt spec.max_pages max_pages
  let eff_md := pyOrOptInt spec.max_depth max_depth
  let skip := fun url => should_skip_url env.parse env.research url spec.allowed_domains
    (spec.allowed_url_prefixes.getD []) (spec.exclude_url_patterns.getD [])
  crawlLoop env skip max_concurrent eff_mp eff_md fuel
    { visited := [], fetched := [], queue := spec.start_urls.map (fun u => (u, 0)), requests := [] }

/-- One `IngestDocument` per stored page. -/
def docOfPage (extractTitle : String → String → String)
    (p : String × (String × String)) : IngestDocument :=
  { doc_id := none, title := extractTitle p.1 p.2.1, source_type := "crawled_docs"
    url_or_path := p.1, vendor := none, product := none, version := none
    date_published := none, text := p.2.2 }

/-- `http_crawler.py: crawl_http_docs` — the returned document list. -/
def crawl_http_docs (env : CrawlEnv) (spec : CrawlHTTP)
    (max_pages max_depth : Int) (max_concurrent fuel : Nat) : List IngestDocument :=
  (crawl_http_state env spec max_pages max_depth max_concurrent fuel).fetched.map
    (docOfPage env.extractTitle)

/-! ## `scheduled_crawl.py`: lock handling

`run_scheduled_crawl` loads config, checks whether a run is due, then
acquires the single-instance lock; everything after acquisition (source
reading, crawling, ingestion, timestamp save) happens inside
`try/finally` and is abstracted as a `body` outcome oracle, since C10
concerns only what happens at lock acquisition.  The filesystem and
clock are explicit fields; Python `float` timestamps are `Rat`. -/

/-- The configuration and world state read by `run_scheduled_crawl`
before the lock is taken. -/
structure SchedulerEnv where
  interval_minutes : Int
  last_run : Option Rat
  now : Rat
  lockExists : Bool
deriving DecidableEq, Repr

/-- The `{"ran": ..., "reason"/counters: ...}` result dict, projected to
the fields every outcome carries. -/
structure SchedOutcome where
  ran : Bool
  reason : String
deriving DecidableEq, Repr

/-- `scheduled_crawl.py: _should_run`. -/
def should_run_sched (interval_minutes : Int) (last : Option Rat) (now : Rat) : Bool :=
  if interval_minutes ≤ 0 then false
  else match last with
    | none => true
    | some l => (interval_minutes * 60 : Rat) ≤ now - l

/-- `scheduled_crawl.py: _acquire_lock`: `os.open(..., O_CREAT|O_EXCL)`
raises `FileExistsError` when the lock file exists, re-raised as
`RuntimeError("Lock already held: ...")`. -/
def acquire_lock (lockExists : Bool) : Except String Nat :=
  if lockExists then Except.error "Lock already held" else Except.ok 0

/-- `scheduled_crawl.py: run_scheduled_crawl` control skeleton.  Lock
acquisition happens before the `try/finally`, so its exception
propagates; the `finally` releases the lock without changing the
propagated value. -/
def run_scheduled_crawl (env : SchedulerEnv) (force : Bool)
    (body : Except String SchedOutcome) : Except String SchedOutcome :=
  if env.interval_minutes = 0 ∧ ¬ force then
    Except.ok ⟨false, "disabled (interval_minutes=0)"⟩
  else if ¬ force ∧ ¬ should_run_sched env.interval_minutes env.last_run env.now then
    Except.ok ⟨false, "not due yet"⟩
  else
    match acquire_lock env.lockExists with
    | Except.error e => Except.error e
    | Except.ok _ => body

/-! ## Verification-side definitions (spec formulas and concrete witnesses) -/

/-- Score contribution of one ranked list whose first element has rank
`r`: the sum of `1/(k + rank)` over the occurrences of `id`. -/
def contribFrom (k : Rat) : Rat → List String → String → Rat
  | _, [], _ => 0
  | r, x :: xs, id => (if id = x then 1 / (k + r) else 0) + contribFrom k (r + 1) xs id

/-- The spec-side scoring formula of section 4.6: `score(id) =
Σ 1/(k + rank)` over the lists containing `id`, with 1-based rank. -/
def rrfSpecScore (ranked_lists : List (List String)) (k : Rat) (id : String) : Rat :=
  (ranked_lists.map
    (fun lst => if id ∈ lst then 1 / (k + ((lst.indexOf id : Nat) + 1 : Rat)) else 0)).sum

/-- `c` is a single atomic unit in the sense of the chunker: one of the
sentence fragments (split on `'. '`) of a paragraph of `paras` that is
itself larger than `maxc`. -/
def isAtomicSentence (paras : List String) (maxc : Nat) (c : String) : Prop :=
  ∃ para, para ∈ paras ∧ maxc < para.length ∧ c ∈ splitSentences para

/-- Concrete one-chunk document used by witnesses. -/
def c2doc : IngestDocument :=
  { title := "t", url_or_path := "u", text := "hello" }

/-- The chunk records `document_to_chunks` produces for `c2doc`. -/
def c2out : List ChunkRecord :=
  ["hello"].enum.map (fun p =>
    mkChunkRecord (resolved_doc_id c2doc) "t" "official_docs" "u" none none none p.1 p.2)

/-- The value `document_to_chunks` returns when chunking validates. -/
def docChunks (doc : IngestDocument) (dv dp dver dst : Option String)
    (mc _oc : Int) : List ChunkRecord :=
  (chunk_text_core (normalize_whitespace doc.text) mc.toNat).enum.map (fun p =>
    mkChunkRecord (resolved_doc_id doc) doc.title
      (pyOrStr doc.source_type (pyOrOptStr dst "official_docs")) doc.url_or_path
      (pyOrOpt doc.vendor dv) (pyOrOpt doc.product dp) (pyOrOpt doc.version dver) p.1 p.2)

/-- All chunk records an ingestion run derives from its documents. -/
def allChunks (documents : List IngestDocument) (dv dp dver dst : Option String)
    (mc oc : Int) : List ChunkRecord :=
  (documents.map (fun doc => docChunks doc dv dp dver dst mc oc)).flatten

/-- The incremental-skip test for one chunk: a stored payload exists
under its `chunk_id` and carries the same `chunk_hash`. -/
def chunkMatches (st : StoreState) (c : ChunkRecord) : Bool :=
  match st.qdrant c.chunk_id with
  | some p => p.payload.chunk_hash = c.chunk_hash
  | none => false

/-- Concrete five-chunk write-batch used by witnesses. -/
def c4batch : List ChunkRecord :=
  ["a", "bb", "ccc", "dddd", "eeeee"].map
    (fun t => ChunkRecord.mk t t "d" "ttl" "st" "u" none none none t)

/-- Concrete embedding oracle whose batch index 1 permanently fails
and which otherwise embeds each text to its length. -/
def c4embed (i : Nat) (bt : List String) : Option (List (List Rat)) :=
  if i = 1 then none else some (bt.map (fun t => [(t.length : Rat)]))

/-- Concrete crawl environment: every URL parses into the allowed
domain, fetches a page whose text is long enough to store, and links
to two further URLs. -/
def c9env : CrawlEnv :=
  { fetch := fun u => some ("<html>" ++ u, String.mk (List.replicate 200 'x'))
    links := fun _ _ => ["http://example.com/a", "http://example.com/b"]
    extractTitle := fun _ _ => "t"
    parse := fun _ => some { scheme := "http", netloc := "example.com" }
    research := fun _ _ => false }

/-- Concrete crawl spec with no per-spec limit overrides. -/
def c9spec : CrawlHTTP :=
  { start_urls := ["http://example.com/"], allowed_domains := ["example.com"] }

/-! # Theorems -/

/-! ## SHA-256 validation against FIPS 180-4 test vectors -/

/-- Known FIPS 180-4 test vector for the empty message, validating the
SHA-256 embedding. -/
theorem sha256_hex_empty :
    sha256_hex "" = "e3b0c44298fc1c149afbf4c8996fb92427ae41e4649b934ca495991b7852b855" := by
  decide

/-- Known FIPS 180-4 test vector for "abc". -/
theorem sha256_hex_abc :
    sha256_hex "abc" = "ba7816bf8f01cfea414140de5dae2223b00361a396177a9cb410ff61f20015ad" := by
  decide

/-! ## C6: chunker parameter validation -/

/-- C6: `chunk_text` raises a `ValueError` if and only if
`max_chars ≤ 0`, `overlap_chars < 0`, or `overlap_chars ≥ max_chars`;
for every other parameter combination it returns normally. -/
theorem chunk_text_validation (text : String) (max_chars overlap_chars : Int) :
    (∃ e, chunk_text text max_chars overlap_chars = Except.error e) ↔
      (max_chars ≤ 0 ∨ overlap_chars < 0 ∨ overlap_chars ≥ max_chars) := by
  by_cases h1 : max_chars ≤ 0
  · simp [chunk_text, h1]
  · by_cases h2 : overlap_chars < 0
    · simp [chunk_text, h1, h2]
    · by_cases h3 : overlap_chars ≥ max_chars
      · simp [chunk_text, h1, h2, h3]
      · simp [chunk_text, h1, h2, h3]

/-! ## C7: no silent content drop (corrected)

The code drops inputs whose whitespace-normalization is empty: a
non-empty all-whitespace input yields zero chunks.  For inputs whose
normalized text is non-empty the claim holds. -/

/-- C7 counterexample: `" "` is a non-empty input string with valid
parameters, yet `chunk_text` returns no chunks. -/
theorem chunk_text_nonempty_counterexample :
    " " ≠ "" ∧ chunk_text " " 10 0 = Except.ok [] := by
  constructor
  · decide
  · rfl

/-- The packing stage never returns an empty chunk list on non-empty
normalized text. -/
theorem chunk_text_core_ne_nil (t : String) (maxc : Nat) (ht : t ≠ "") :
    chunk_text_core t maxc ≠ [] := by
  intro h
  unfold chunk_text_core at h
  rw [if_neg ht] at h
  by_cases hle : t.length ≤ maxc
  · rw [if_pos hle] at h
    exact List.cons_ne_nil _ _ h
  · rw [if_neg hle] at h
    split at h
    · exact List.cons_ne_nil _ _ h
    · simp_all

/-- C7 amended: for every input whose *normalized* text is non-empty
and valid parameters, `chunk_text` returns at least one chunk. -/
theorem chunk_text_no_content_drop (text : String) (max_chars overlap_chars : Int)
    (hv : 0 < max_chars) (h0 : 0 ≤ overlap_chars) (hlt : overlap_chars < max_chars)
    (hne : normalize_whitespace text ≠ "") :
    ∃ cs, chunk_text text max_chars overlap_chars = Except.ok cs ∧ cs ≠ [] := by
  refine ⟨chunk_text_core (normalize_whitespace text) max_chars.toNat, ?_, ?_⟩
  · unfold chunk_text
    rw [if_neg (by omega), if_neg (by omega), if_neg (by omega)]
  · exact chunk_text_core_ne_nil _ _ hne

/-- C7 witness: a concrete non-blank input produces a chunk. -/
theorem chunk_text_no_content_drop_witness :
    ∃ cs, chunk_text "hi" 10 0 = Except.ok cs ∧ cs ≠ [] :=
  chunk_text_no_content_drop "hi" 10 0 (by decide) (by decide) (by decide) (by decide)

/-! ## C5: chunk size bound -/

theorem pyStrip_length_le (s : String) : (pyStrip s).length ≤ s.length := by
  show (pyStripChars s.data).length ≤ s.data.length
  unfold pyStripChars
  simp only [List.length_reverse]
  calc (List.dropWhile isPySpace (s.data.dropWhile isPySpace).reverse).length
      ≤ (s.data.dropWhile isPySpace).reverse.length :=
        (List.dropWhile_sublist _).length_le
    _ = (s.data.dropWhile isPySpace).length := List.length_reverse _
    _ ≤ s.data.length := (List.dropWhile_sublist _).length_le

theorem mem_flushState {st : PackState} {c : String} (h : c ∈ flushState st) :
    c ∈ st.chunks ∨ c = st.current := by
  unfold flushState at h
  split at h
  · rcases List.mem_append.mp h with h | h
    · exact Or.inl h
    · exact Or.inr (List.mem_singleton.mp h)
  · exact Or.inl h

/-- One step of the sentence loop preserves: emitted chunks are within
the bound or are sentences of the current paragraph, and the pending
chunk is empty, within the bound, or such a sentence. -/
theorem packSentence_inv (mc : Nat) (Q : String → Prop) (sent : String)
    (hsent : Q sent) (st : PackState)
    (hch : ∀ c ∈ st.chunks, c.length ≤ mc ∨ Q c)
    (hcur : st.current = "" ∨ st.current.length ≤ mc ∨ Q st.current) :
    (∀ c ∈ (packSentence mc st sent).chunks, c.length ≤ mc ∨ Q c)
    ∧ ((packSentence mc st sent).current = "" ∨ (packSentence mc st sent).current.length ≤ mc
        ∨ Q (packSentence mc st sent).current) := by
  unfold packSentence
  by_cases hfit : st.current.length + sent.length + 1 ≤ mc
  · rw [if_pos hfit]
    refine ⟨hch, Or.inr ?_⟩
    by_cases hcz : st.current ≠ ""
    · rw [if_pos hcz]
      left
      calc (pyStrip (st.current ++ " " ++ sent)).length
          ≤ (st.current ++ " " ++ sent).length := pyStrip_length_le _
        _ = st.current.length + 1 + sent.length := by
            rw [String.length_append, String.length_append]
            rfl
        _ ≤ mc := by omega
    · rw [if_neg hcz]
      left
      show sent.length ≤ mc
      omega
  · rw [if_neg hfit]
    constructor
    · intro c hc
      by_cases hcz : st.current ≠ ""
      · rw [if_pos hcz] at hc
        rcases List.mem_append.mp hc with hc | hc
        · exact hch c hc
        · rcases hcur with hcur | hcur
          · exact absurd hcur (by simpa [List.mem_singleton.mp hc] using hcz)
          · rw [List.mem_singleton.mp hc]
            exact hcur
      · rw [if_neg hcz] at hc
        exact hch c hc
    · exact Or.inr (Or.inr hsent)

/-- The whole sentence loop preserves the sentence-loop invariant. -/
theorem sentence_fold_inv (mc : Nat) (Q : String → Prop) :
    ∀ (l : List String) (st : PackState), (∀ s ∈ l, Q s) →
      (∀ c ∈ st.chunks, c.length ≤ mc ∨ Q c) →
      (st.current = "" ∨ st.current.length ≤ mc ∨ Q st.current) →
      (∀ c ∈ (l.foldl (packSentence mc) st).chunks, c.length ≤ mc ∨ Q c)
      ∧ ((l.foldl (packSentence mc) st).current = ""
          ∨ (l.foldl (packSentence mc) st).current.length ≤ mc
          ∨ Q (l.foldl (packSentence mc) st).current) := by
  intro l
  induction l with
  | nil => intro st _ hch hcur; exact ⟨hch, hcur⟩
  | cons s rest ih =>
      intro st hl hch hcur
      have hstep := packSentence_inv mc Q s (hl s (List.mem_cons_self s rest)) st hch hcur
      exact ih (packSentence mc st s) (fun x hx => hl x (List.mem_cons_of_mem s hx))
        hstep.1 hstep.2

/-- One step of the paragraph loop preserves: emitted chunks are within
the bound or atomic oversized sentences, and the pending chunk is
empty, within the bound, or such a sentence. -/
theorem packParagraph_inv (mc : Nat) (paras : List String) (para : String)
    (hpara : para ∈ paras) (st : PackState)
    (hch : ∀ c ∈ st.chunks, c.length ≤ mc ∨ isAtomicSentence paras mc c)
    (hcur : st.current = "" ∨ st.current.length ≤ mc ∨ isAtomicSentence paras mc st.current) :
    (∀ c ∈ (packParagraph mc st para).chunks, c.length ≤ mc ∨ isAtomicSentence paras mc c)
    ∧ ((packParagraph mc st para).current = "" ∨ (packParagraph mc st para).current.length ≤ mc
        ∨ isAtomicSentence paras mc (packParagraph mc st para).current) := by
  have hflush : ∀ c ∈ flushState st, c.length ≤ mc ∨ isAtomicSentence paras mc c := by
    intro c hc
    rcases mem_flushState hc with hc | hc
    · exact hch c hc
    · subst hc
      rcases hcur with hcur | hcur
      · left
        rw [hcur]
        exact Nat.zero_le mc
      · exact hcur
  unfold packParagraph
  by_cases hfit : st.current.length + para.length + 2 ≤ mc
  · rw [if_pos hfit]
    refine ⟨hch, Or.inr (Or.inl ?_)⟩
    by_cases hcz : st.current ≠ ""
    · rw [if_pos hcz]
      calc (pyStrip (st.current ++ "\n\n" ++ para)).length
          ≤ (st.current ++ "\n\n" ++ para).length := pyStrip_length_le _
        _ = st.current.length + 2 + para.length := by
            rw [String.length_append, String.length_append]
            rfl
        _ ≤ mc := by omega
    · rw [if_neg hcz]
      show para.length ≤ mc
      omega
  · rw [if_neg hfit]
    by_cases hbig : mc < para.length
    · rw [if_pos hbig]
      exact sentence_fold_inv mc (isAtomicSentence paras mc) (splitSentences para)
        ⟨flushState st, ""⟩ (fun s hs => ⟨para, hpara, hbig, hs⟩) hflush (Or.inl rfl)
    · rw [if_neg hbig]
      refine ⟨hflush, Or.inr (Or.inl ?_)⟩
      show para.length ≤ mc
      omega

/-- The whole paragraph loop preserves the invariant. -/
theorem paragraph_fold_inv (mc : Nat) (paras : List String) :
    ∀ (l : List String) (st : PackState), (∀ p ∈ l, p ∈ paras) →
      (∀ c ∈ st.chunks, c.length ≤ mc ∨ isAtomicSentence paras mc c) →
      (st.current = "" ∨ st.current.length ≤ mc ∨ isAtomicSentence paras mc st.current) →
      (∀ c ∈ (l.foldl (packParagraph mc) st).chunks, c.length ≤ mc ∨ isAtomicSentence paras mc c)
      ∧ ((l.foldl (packParagraph mc) st).current = ""
          ∨ (l.foldl (packParagraph mc) st).current.length ≤ mc
          ∨ isAtomicSentence paras mc (l.foldl (packParagraph mc) st).current) := by
  intro l
  induction l with
  | nil => intro st _ hch hcur; exact ⟨hch, hcur⟩
  | cons p rest ih =>
      intro st hl hch hcur
      have hstep := packParagraph_inv mc paras p (hl p (List.mem_cons_self p rest)) st hch hcur
      exact ih (packParagraph mc st p) (fun x hx => hl x (List.mem_cons_of_mem p hx))
        hstep.1 hstep.2

/-- Every chunk in the packing-stage output is within the bound or an
atomic oversized sentence. -/
theorem chunk_text_core_bound (t : String) (mc : Nat) :
    ∀ c ∈ chunk_text_core t mc,
      c.length ≤ mc ∨ isAtomicSentence (splitParagraphs t) mc c := by
  intro c hc
  unfold chunk_text_core at hc
  by_cases h0 : t = ""
  · rw [if_pos h0] at hc
    exact absurd hc (List.not_mem_nil c)
  · rw [if_neg h0] at hc
    by_cases h1 : t.length ≤ mc
    · rw [if_pos h1] at hc
      rw [List.mem_singleton.mp hc]
      exact Or.inl h1
    · rw [if_neg h1] at hc
      have hfold := paragraph_fold_inv mc (splitParagraphs t) (splitParagraphs t)
        ⟨[], ""⟩ (fun p hp => hp) (by intro x hx; exact absurd hx (List.not_mem_nil x))
        (Or.inl rfl)
      split at hc
      · rw [List.mem_singleton.mp hc]
        left
        show (t.data.take mc).length ≤ mc
        simp
      · rcases mem_flushState hc with h | h
        · exact hfold.1 c h
        · subst h
          rcases hfold.2 with h | h | h
          · left
            rw [h]
            exact Nat.zero_le mc
          · exact Or.inl h
          · exact Or.inr h

/-- C5: every chunk returned by `chunk_text` has length at most
`max_chars`, except when it is a single atomic unit — a sentence of an
oversized paragraph — that unavoidably exceeds the bound. -/
theorem chunk_text_size_bound (text : String) (max_chars overlap_chars : Int)
    (cs : List String) (h : chunk_text text max_chars overlap_chars = Except.ok cs) :
    ∀ c ∈ cs, (c.length : Int) ≤ max_chars
      ∨ isAtomicSentence (splitParagraphs (normalize_whitespace text)) max_chars.toNat c := by
  unfold chunk_text at h
  by_cases h1 : max_chars ≤ 0
  · rw [if_pos h1] at h
    exact absurd h (by simp)
  · rw [if_neg h1] at h
    by_cases h2 : overlap_chars < 0
    · rw [if_pos h2] at h
      exact absurd h (by simp)
    · rw [if_neg h2] at h
      by_cases h3 : overlap_chars ≥ max_chars
      · rw [if_pos h3] at h
        exact absurd h (by simp)
      · rw [if_neg h3] at h
        have hcs : cs = chunk_text_core (normalize_whitespace text) max_chars.toNat :=
          (Except.ok.injEq _ _).mp h.symm
        subst hcs
        intro c hc
        rcases chunk_text_core_bound (normalize_whitespace text) max_chars.toNat c hc with
          hle | hat
        · left
          omega
        · exact Or.inr hat

/-- C5 witness: a concrete text whose second chunk is an unsplittable
oversized sentence. -/
theorem chunk_text_size_bound_witness :
    (("an unsplittable oversized sentence" : String).length : Int) ≤ 12
    ∨ isAtomicSentence
        (splitParagraphs (normalize_whitespace
          "short para\n\nan unsplittable oversized sentence")) (Int.toNat 12)
        "an unsplittable oversized sentence" :=
  chunk_text_size_bound "short para\n\nan unsplittable oversized sentence" 12 0
    ["short para", "an unsplittable oversized sentence"] (by rfl)
    "an unsplittable oversized sentence" (by decide)

/-! ## C10: lock contention (corrected)

`_acquire_lock` is called before the `try/finally` of
`run_scheduled_crawl` and its `RuntimeError` is not caught anywhere in
the function, so when the lock file already exists a due run raises
instead of returning a structured `{"ran": False, ...}` outcome. -/

/-- C10 counterexample: a forced run against an existing lock file
raises `RuntimeError("Lock already held")` instead of returning a
structured outcome. -/
theorem run_scheduled_crawl_lock_counterexample :
    run_scheduled_crawl ⟨5, none, 0, true⟩ true (Except.ok ⟨true, ""⟩) =
      Except.error "Lock already held" := by
  rfl

/-- C10 amended: whenever a run is due (it passes both early-return
checks) and the lock file already exists at acquisition time,
`run_scheduled_crawl` propagates the `RuntimeError` from
`_acquire_lock` to its caller; no structured did-not-run outcome is
produced. -/
theorem run_scheduled_crawl_lock_raises (env : SchedulerEnv) (force : Bool)
    (body : Except String SchedOutcome)
    (h1 : ¬ (env.interval_minutes = 0 ∧ ¬ force))
    (h2 : ¬ (¬ force ∧ ¬ should_run_sched env.interval_minutes env.last_run env.now))
    (hlock : env.lockExists = true) :
    run_scheduled_crawl env force body = Except.error "Lock already held" := by
  unfold run_scheduled_crawl
  rw [if_neg h1, if_neg h2]
  unfold acquire_lock
  rw [hlock]
  simp

/-! ## C2: determinism and structure of chunk identity -/

/-- C2: `document_to_chunks` is deterministic — two runs on
byte-identical input are equal — and on success every produced record
at index `i` carries `chunk_hash = sha256_hex` of its normalized chunk
text and `chunk_id = sha256_hex(doc_id|i|chunk_hash)[:32]` for the
resolved document id. -/
theorem document_to_chunks_deterministic (doc : IngestDocument)
    (dv dp dver dst : Option String) (mc oc : Int) :
    document_to_chunks doc dv dp dver dst mc oc = document_to_chunks doc dv dp dver dst mc oc
    ∧ ∀ out, document_to_chunks doc dv dp dver dst mc oc = Except.ok out →
      ∀ i, ∀ h : i < out.length,
        (out.get ⟨i, h⟩).chunk_hash = sha256_hex ((out.get ⟨i, h⟩).text)
        ∧ (out.get ⟨i, h⟩).chunk_id =
            charTake (sha256_hex (resolved_doc_id doc ++ "|" ++ toString i ++ "|"
              ++ (out.get ⟨i, h⟩).chunk_hash)) 32
        ∧ (out.get ⟨i, h⟩).doc_id = resolved_doc_id doc := by
  refine ⟨rfl, ?_⟩
  intro out hout i h
  cases hc : chunk_text doc.text mc oc with
  | error e => simp [document_to_chunks, hc] at hout
  | ok cs =>
      simp only [document_to_chunks, hc, Except.ok.injEq] at hout
      subst hout
      have hi : i < cs.length := by
        have := h
        simpa [List.enum_length] using this
      simp [List.get_eq_getElem, List.getElem_map, List.getElem_enum, mkChunkRecord]

/-- C2 witness: the structural identities instantiated on a concrete
document (one chunk, index 0). -/
theorem document_to_chunks_deterministic_witness :
    (c2out.get ⟨0, by decide⟩).chunk_hash = sha256_hex ((c2out.get ⟨0, by decide⟩).text) :=
  ((document_to_chunks_deterministic c2doc none none none none 100 0).2
    c2out rfl 0 (by decide)).1

/-! ## C8: reciprocal-rank fusion -/

theorem rrf_inner_fold (k : Rat) (lst : List String) :
    ∀ (n : Nat) (sc : String → Rat) (id : String),
      ((lst.enumFrom n).foldl
        (fun sc p => fun i => if i = p.2 then sc p.2 + 1 / (k + (p.1 + 1 : Rat)) else sc i)
        sc) id = sc id + contribFrom k (n + 1) lst id := by
  induction lst with
  | nil => intro n sc id; simp [List.enumFrom, contribFrom]
  | cons x xs ih =>
      intro n sc id
      simp only [List.enumFrom, List.foldl_cons]
      rw [ih]
      by_cases hx : id = x
      · subst hx
        simp only [if_pos rfl, contribFrom, if_pos rfl]
        push_cast
        ring
      · simp only [if_neg hx, contribFrom, if_neg hx]
        push_cast
        ring

theorem rrf_outer_fold (k : Rat) (ls : List (List String)) :
    ∀ (sc : String → Rat) (id : String),
      (ls.foldl
        (fun scores lst =>
          lst.enum.foldl
            (fun sc p => fun i => if i = p.2 then sc p.2 + 1 / (k + (p.1 + 1 : Rat)) else sc i)
            scores)
        sc) id = sc id + (ls.map (fun lst => contribFrom k 1 lst id)).sum := by
  induction ls with
  | nil => intro sc id; simp
  | cons l ls ih =>
      intro sc id
      simp only [List.foldl_cons, List.map_cons, List.sum_cons]
      rw [ih]
      have h := rrf_inner_fold k l 0 sc id
      simp only [Nat.cast_zero, zero_add] at h
      simp only [List.enum]
      rw [h]
      ring

theorem contribFrom_of_nodup (k : Rat) (lst : List String) (hnd : lst.Nodup) :
    ∀ (r : Rat) (id : String),
      contribFrom k r lst id =
        if id ∈ lst then 1 / (k + r + (lst.indexOf id : Nat)) else 0 := by
  induction lst with
  | nil => intro r id; simp [contribFrom]
  | cons x xs ih =>
      intro r id
      have hx : x ∉ xs := (List.nodup_cons.mp hnd).1
      have hxs : xs.Nodup := (List.nodup_cons.mp hnd).2
      by_cases h : id = x
      · subst h
        have hnot : id ∉ xs := hx
        simp only [contribFrom, if_pos rfl, ih hxs, if_neg hnot]
        simp [List.indexOf_cons_self]
      · simp only [contribFrom, if_neg h, ih hxs]
        by_cases hmem : id ∈ xs
        · rw [if_pos hmem, if_pos (List.mem_cons_of_mem _ hmem)]
          rw [List.indexOf_cons_ne _ (fun hxa => h hxa.symm)]
          push_cast
          ring_nf
        · rw [if_neg hmem, if_neg ?_]
          · simp
          · intro hc
            rcases List.mem_cons.mp hc with hc | hc
            · exact h hc
            · exact hmem hc

/-- C8: `rrf_fuse` assigns each id the sum, over the (duplicate-free)
ranked lists containing it, of `1/(k + rank)` with 1-based rank; and on
keyword ranks `[A,B,C]` and vector ranks `[B,A,D]` with `k = 60`, `A`
scores `1/61 + 1/62` and both `A` and `B` score strictly higher than
`C` and `D`. -/
theorem rrf_fuse_formula :
    (∀ (ls : List (List String)) (k : Rat) (id : String),
      (∀ l ∈ ls, l.Nodup) → rrf_fuse ls k id = rrfSpecScore ls k id)
    ∧ rrf_fuse [["A", "B", "C"], ["B", "A", "D"]] 60 "A" = 1 / 61 + 1 / 62
    ∧ rrf_fuse [["A", "B", "C"], ["B", "A", "D"]] 60 "C"
        < rrf_fuse [["A", "B", "C"], ["B", "A", "D"]] 60 "A"
    ∧ rrf_fuse [["A", "B", "C"], ["B", "A", "D"]] 60 "D"
        < rrf_fuse [["A", "B", "C"], ["B", "A", "D"]] 60 "A"
    ∧ rrf_fuse [["A", "B", "C"], ["B", "A", "D"]] 60 "C"
        < rrf_fuse [["A", "B", "C"], ["B", "A", "D"]] 60 "B"
    ∧ rrf_fuse [["A", "B", "C"], ["B", "A", "D"]] 60 "D"
        < rrf_fuse [["A", "B", "C"], ["B", "A", "D"]] 60 "B" := by
  refine ⟨?_, ?_, ?_, ?_, ?_, ?_⟩
  · intro ls k id hnd
    unfold rrf_fuse
    rw [rrf_outer_fold]
    unfold rrfSpecScore
    simp only [zero_add]
    congr 1
    apply List.map_congr_left
    intro l hl
    rw [contribFrom_of_nodup k l (hnd l hl)]
    by_cases hmem : id ∈ l
    · rw [if_pos hmem, if_pos hmem]
      ring_nf
    · rw [if_neg hmem, if_neg hmem]
  all_goals
    (simp only [rrf_fuse, List.enum, List.enumFrom, List.foldl_cons, List.foldl_nil]
     simp
     try norm_num)

/-- C8 witness: the general formula applied to the concrete example
lists (which are duplicate-free). -/
theorem rrf_fuse_formula_witness :
    rrf_fuse [["A", "B", "C"], ["B", "A", "D"]] 60 "B" =
      rrfSpecScore [["A", "B", "C"], ["B", "A", "D"]] 60 "B" :=
  rrf_fuse_formula.1 [["A", "B", "C"], ["B", "A", "D"]] 60 "B" (by decide)

/-! ## C3: embedding batcher order preservation -/

theorem set_append_length {α : Type u} (pre : List α) (a : α) (l : List α) (v : α) :
    (pre ++ a :: l).set pre.length v = pre ++ v :: l := by
  induction pre with
  | nil => rfl
  | cons x xs ih => simp [List.set, ih]

theorem enumFrom_map_pair {α β : Type u} (g : Nat × α → β) :
    ∀ (l : List α) (k : Nat),
      (l.enumFrom k).map (fun p => (p.1, g p)) = ((l.enumFrom k).map g).enumFrom k := by
  intro l
  induction l with
  | nil => intro k; simp
  | cons x xs ih => intro k; simp [List.enumFrom, ih]

theorem scatter_enumFrom (vs : List (Option (List (List Rat)))) :
    ∀ (pre : List (Option (List (List Rat)))),
      (vs.enumFrom pre.length).foldl (fun arr p => arr.set p.1 p.2)
        (pre ++ List.replicate vs.length none) = pre ++ vs := by
  induction vs with
  | nil => intro pre; simp [List.enumFrom]
  | cons v vs ih =>
      intro pre
      simp only [List.enumFrom, List.foldl_cons, List.length_cons, List.replicate_succ]
      rw [set_append_length]
      have h := ih (pre ++ [v])
      simp only [List.length_append, List.length_cons, List.length_nil] at h
      simpa [List.append_assoc] using h

theorem scatterResults_enum (vs : List (Option (List (List Rat)))) :
    scatterResults vs.length vs.enum = vs := by
  have h := scatter_enumFrom vs []
  simpa [scatterResults, List.enum] using h

theorem flattenResults_eq (vs : List (Option (List (List Rat)))) :
    flattenResults vs = (vs.filterMap id).flatten := by
  suffices h : ∀ acc, vs.foldl
      (fun acc o => match o with
        | none => acc
        | some vs => acc ++ vs) acc = acc ++ (vs.filterMap id).flatten by
    simpa [flattenResults] using h []
  induction vs with
  | nil => intro acc; simp
  | cons v vs ih =>
      intro acc
      cases v with
      | none => simpa [List.filterMap_cons] using ih acc
      | some x => simp [List.filterMap_cons, ih (acc ++ x)]

theorem chunksOfAux_flatten {α : Type u} (n : Nat) (hn : 0 < n) :
    ∀ (fuel : Nat) (l : List α), l.length ≤ fuel → (chunksOfAux n fuel l).flatten = l := by
  intro fuel
  induction fuel with
  | zero =>
      intro l hl
      have : l = [] := List.eq_nil_of_length_eq_zero (Nat.le_zero.mp hl)
      subst this
      rfl
  | succ fuel ih =>
      intro l hl
      cases l with
      | nil => rfl
      | cons x xs =>
          simp only [chunksOfAux, List.flatten_cons]
          rw [ih]
          · exact List.take_append_drop n (x :: xs)
          · simp only [List.length_drop, List.length_cons] at hl ⊢
            omega

theorem chunksOf_flatten {α : Type u} (n : Nat) (hn : 0 < n) (l : List α) :
    (chunksOf n l).flatten = l := by
  unfold chunksOf
  rw [if_neg (by omega)]
  exact chunksOfAux_flatten n hn l.length l le_rfl

/-- Shared characterization of `batched_embed_many`: the output is the
flattening, in batch-index order, of the non-failed batch outcomes, and
the batches partition the input. -/
theorem batched_embed_many_flatten (embed : Nat → List String → Option (List (List Rat)))
    (texts : List String) (batch_size : Nat) (hbs : 0 < batch_size) :
    batched_embed_many embed texts batch_size
      = ((chunksOf batch_size texts).enum.filterMap (fun p => embed p.1 p.2)).flatten
    ∧ (chunksOf batch_size texts).flatten = texts := by
  refine ⟨?_, chunksOf_flatten batch_size hbs texts⟩
  unfold batched_embed_many
  have h1 : (chunksOf batch_size texts).enum.map (fun p => (p.1, embed p.1 p.2))
      = ((chunksOf batch_size texts).enum.map (fun p => embed p.1 p.2)).enum := by
    have h := enumFrom_map_pair (fun p => embed p.1 p.2) (chunksOf batch_size texts) 0
    simpa [List.enum] using h
  have h2 : (chunksOf batch_size texts).enum.length
      = ((chunksOf batch_size texts).enum.map (fun p => embed p.1 p.2)).length := by
    simp
  rw [h1, h2, scatterResults_enum, flattenResults_eq]
  congr 1
  rw [List.filterMap_map]
  rfl

/-- C3: `batched_embed_many` returns exactly the concatenation, in
original batch order, of the vector lists of the batches whose outcome
is not a permanent failure; and the batches partition the input texts
in order, so output vectors follow input text order for non-failed
batches and failed-batch texts are absent. -/
theorem batched_embed_many_order (embed : Nat → List String → Option (List (List Rat)))
    (texts : List String) (batch_size : Nat) (hbs : 0 < batch_size) :
    batched_embed_many embed texts batch_size
      = ((chunksOf batch_size texts).enum.filterMap (fun p => embed p.1 p.2)).flatten
    ∧ (chunksOf batch_size texts).flatten = texts :=
  batched_embed_many_flatten embed texts batch_size hbs

/-- C3 witness: a concrete run with a failing middle batch — outputs
are the concatenation of the surviving batches in order. -/
theorem batched_embed_many_order_witness :
    batched_embed_many c4embed ["a", "bb", "ccc", "dddd", "eeeee"] 2
      = ((chunksOf 2 ["a", "bb", "ccc", "dddd", "eeeee"]).enum.filterMap
          (fun p => c4embed p.1 p.2)).flatten :=
  (batched_embed_many_order c4embed ["a", "bb", "ccc", "dddd", "eeeee"] 2 (by decide)).1

/-! ## C4: vector-to-chunk pairing under partial embedding failure -/

theorem zip_map_fst {α β : Type u} :
    ∀ (l : List α) (l2 : List β), (l.zip l2).map Prod.fst = l.take l2.length := by
  intro l
  induction l with
  | nil => intro l2; simp
  | cons x xs ih =>
      intro l2
      cases l2 with
      | nil => simp
      | cons y ys => simp [ih]

theorem zip_map_snd {α β : Type u} :
    ∀ (l : List α) (l2 : List β), (l.zip l2).map Prod.snd = l2.take l.length := by
  intro l
  induction l with
  | nil => intro l2; simp
  | cons x xs ih =>
      intro l2
      cases l2 with
      | nil => simp
      | cons y ys => simp [ih]

theorem enumFrom_map_snd_fun {α β : Type u} (g : α → β) :
    ∀ (l : List α) (k : Nat), (l.enumFrom k).map (fun p => g p.2) = l.map g := by
  intro l
  induction l with
  | nil => intro k; simp
  | cons x xs ih => intro k; simp [List.enumFrom, ih]

theorem zip_self_map {α β : Type u} (g : α → β) :
    ∀ (l : List α), l.zip (l.map g) = l.map (fun a => (a, g a)) := by
  intro l
  induction l with
  | nil => simp
  | cons x xs ih => simp [ih]

/-- When every batch outcome is the per-text embedding `f`, the batcher
returns exactly the input-order embeddings of all texts. -/
theorem batched_embed_many_success (embed : Nat → List String → Option (List (List Rat)))
    (texts : List String) (batch_size : Nat) (hbs : 0 < batch_size) (f : String → List Rat)
    (hf : ∀ i bt, embed i bt = some (bt.map f)) :
    batched_embed_many embed texts batch_size = texts.map f := by
  have h := batched_embed_many_flatten embed texts batch_size hbs
  rw [h.1]
  have h2 : (chunksOf batch_size texts).enum.filterMap (fun p => embed p.1 p.2)
      = (chunksOf batch_size texts).enum.map (fun p => p.2.map f) := by
    have : (fun p : Nat × List String => embed p.1 p.2)
        = (some ∘ fun p : Nat × List String => p.2.map f) := by
      funext p
      exact hf p.1 p.2
    rw [this, List.filterMap_eq_map]
  rw [h2]
  have h3 := enumFrom_map_snd_fun (List.map f) (chunksOf batch_size texts) 0
  simp only [List.enum]
  rw [h3, ← List.map_flatten, h.2]

/-- Under a fully successful per-text embedding oracle, the upserted
points pair every chunk of the batch with the embedding of its own
text. -/
theorem writeBatchPoints_success (embed : Nat → List String → Option (List (List Rat)))
    (ebs : Nat) (f : String → List Rat) (hebs : 0 < ebs)
    (hall : ∀ i bt, embed i bt = some (bt.map f)) (batch : List ChunkRecord) :
    writeBatchPoints embed ebs batch
      = batch.map (fun c => QdrantPoint.mk c.chunk_id (f c.text) (mkPayload c)) := by
  have hv : batched_embed_many embed (batch.map (fun c => c.text)) ebs
      = batch.map (fun c => f c.text) := by
    rw [batched_embed_many_success embed _ ebs hebs f hall, List.map_map]
    rfl
  unfold writeBatchPoints writeBatchPairs
  rw [hv, zip_self_map, List.map_map]
  rfl

/-- Under a fully successful per-text embedding oracle, the upserted
keyword records cover every chunk of the batch. -/
theorem writeBatchTantivy_success (embed : Nat → List String → Option (List (List Rat)))
    (ebs : Nat) (f : String → List Rat) (hebs : 0 < ebs)
    (hall : ∀ i bt, embed i bt = some (bt.map f)) (batch : List ChunkRecord) :
    writeBatchTantivy embed ebs batch = batch.map mkTantivyDoc := by
  have hv : batched_embed_many embed (batch.map (fun c => c.text)) ebs
      = batch.map (fun c => f c.text) := by
    rw [batched_embed_many_success embed _ ebs hebs f hall, List.map_map]
    rfl
  unfold writeBatchTantivy writeBatchPairs
  rw [hv, zip_self_map, List.map_map]
  rfl

/-- C4: in a write-batch of `ingest_documents`, when every embedding
batch succeeds each upserted point and keyword record pairs a chunk
with the embedding of its own text; in general exactly the first
`m = |vectors|` chunks of the batch are upserted, positionally paired
with the returned vectors (so after a failed embedding batch the
pairing shifts onto other chunks' embeddings), and the remaining
chunks of the batch are not written at all. -/
theorem writeBatch_pairing (embed : Nat → List String → Option (List (List Rat)))
    (ebs : Nat) (batch : List ChunkRecord) (f : String → List Rat) (hebs : 0 < ebs)
    (hf : ∀ i bt, embed i bt = none ∨ embed i bt = some (bt.map f)) :
    ((∀ i bt, ¬ embed i bt = none) →
        writeBatchPoints embed ebs batch
          = batch.map (fun c => QdrantPoint.mk c.chunk_id (f c.text) (mkPayload c))
        ∧ writeBatchTantivy embed ebs batch = batch.map mkTantivyDoc)
    ∧ (writeBatchPoints embed ebs batch).map (fun p => p.id)
        = (batch.take (batched_embed_many embed (batch.map (fun c => c.text)) ebs).length).map
            (fun c => c.chunk_id)
    ∧ (writeBatchPoints embed ebs batch).map (fun p => p.vector)
        = (batched_embed_many embed (batch.map (fun c => c.text)) ebs).take batch.length
    ∧ (writeBatchPoints embed ebs batch).length
        = min batch.length (batched_embed_many embed (batch.map (fun c => c.text)) ebs).length
    ∧ writeBatchTantivy embed ebs batch
        = (batch.take (batched_embed_many embed (batch.map (fun c => c.text)) ebs).length).map
            mkTantivyDoc := by
  refine ⟨?_, ?_, ?_, ?_, ?_⟩
  · intro hne
    have hall : ∀ i bt, embed i bt = some (bt.map f) := fun i bt =>
      (hf i bt).resolve_left (hne i bt)
    exact ⟨writeBatchPoints_success embed ebs f hebs hall batch,
      writeBatchTantivy_success embed ebs f hebs hall batch⟩
  · unfold writeBatchPoints writeBatchPairs
    rw [List.map_map]
    have h1 : (batch.zip (batched_embed_many embed (batch.map (fun c => c.text)) ebs)).map
        ((fun p => p.id) ∘ fun p : ChunkRecord × List Rat =>
          QdrantPoint.mk p.1.chunk_id p.2 (mkPayload p.1))
        = ((batch.zip (batched_embed_many embed (batch.map (fun c => c.text)) ebs)).map
            Prod.fst).map (fun c => c.chunk_id) := by
      rw [List.map_map]
      rfl
    rw [h1, zip_map_fst]
  · unfold writeBatchPoints writeBatchPairs
    rw [List.map_map]
    have h1 : (batch.zip (batched_embed_many embed (batch.map (fun c => c.text)) ebs)).map
        ((fun p => p.vector) ∘ fun p : ChunkRecord × List Rat =>
          QdrantPoint.mk p.1.chunk_id p.2 (mkPayload p.1))
        = ((batch.zip (batched_embed_many embed (batch.map (fun c => c.text)) ebs)).map
            Prod.snd) := by
      rfl
    rw [h1, zip_map_snd]
  · simp [writeBatchPoints, writeBatchPairs]
  · unfold writeBatchTantivy writeBatchPairs
    have h1 : (batch.zip (batched_embed_many embed (batch.map (fun c => c.text)) ebs)).map
        (fun p => mkTantivyDoc p.1)
        = ((batch.zip (batched_embed_many embed (batch.map (fun c => c.text)) ebs)).map
            Prod.fst).map mkTantivyDoc := by
      rw [List.map_map]
      rfl
    rw [h1, zip_map_fst]

/-- C4 witness: the pairing facts at a concrete five-chunk batch whose
middle embedding batch permanently fails (`c4embed` with
`embed_batch_size = 2`). -/
theorem writeBatch_pairing_witness :
    (writeBatchPoints c4embed 2 c4batch).map (fun p => p.id)
      = (c4batch.take (batched_embed_many c4embed (c4batch.map (fun c => c.text)) 2).length).map
          (fun c => c.chunk_id) :=
  (writeBatch_pairing c4embed 2 c4batch (fun t => [(t.length : Rat)]) (by decide)
    (fun i bt => by
      by_cases h : i = 1
      · exact Or.inl (by simp [c4embed, h])
      · exact Or.inr (by simp [c4embed, h]))).2.1

/-- C10 witness: an unattended (non-forced) run that is due, with the
lock file present, raises. -/
theorem run_scheduled_crawl_lock_raises_witness :
    run_scheduled_crawl ⟨5, none, 10000, true⟩ false (Except.ok ⟨true, ""⟩) =
      Except.error "Lock already held" :=
  run_scheduled_crawl_lock_raises ⟨5, none, 10000, true⟩ false (Except.ok ⟨true, ""⟩)
    (by simp) (by simp [should_run_sched]) rfl

/-! ## C9: crawler boundaries -/

theorem dictUpsert_length_le {β : Type} (d : List (String × β)) (k : String) (v : β) :
    (dictUpsert d k v).length ≤ d.length + 1 := by
  unfold dictUpsert
  split
  · simp only [List.length_map]
    omega
  · simp only [List.length_append, List.length_cons, List.length_nil]
    omega

theorem popBatch_length (skip : String → Bool) :
    ∀ (n : Nat) (visited : List String) (queue : List (String × Nat)),
      (popBatch skip n visited queue).1.length ≤ n := by
  intro n
  induction n with
  | zero => intro visited queue; cases queue <;> simp [popBatch]
  | succ n ih =>
      intro visited queue
      cases queue with
      | nil => simp [popBatch]
      | cons hd rest =>
          obtain ⟨url, depth⟩ := hd
          unfold popBatch
          split
          · exact Nat.le_succ_of_le (ih _ _)
          · have h := ih (if url ∈ visited then visited else url :: visited) rest
            simp only [List.length_cons]
            omega

theorem popBatch_mem (skip : String → Bool) :
    ∀ (n : Nat) (visited : List String) (queue : List (String × Nat)),
      ∀ p ∈ (popBatch skip n visited queue).1, p ∈ queue := by
  intro n
  induction n with
  | zero => intro visited queue p hp; cases queue <;> simp [popBatch] at hp
  | succ n ih =>
      intro visited queue p hp
      cases queue with
      | nil => simp [popBatch] at hp
      | cons hd rest =>
          obtain ⟨url, depth⟩ := hd
          unfold popBatch at hp
          split at hp
          · exact List.mem_cons_of_mem _ (ih _ rest p hp)
          · simp only [List.mem_cons] at hp ⊢
            rcases hp with h | h
            · exact Or.inl h
            · exact Or.inr (ih _ rest p h)

theorem popBatch_queue_sublist (skip : String → Bool) :
    ∀ (n : Nat) (visited : List String) (queue : List (String × Nat)),
      List.Sublist (popBatch skip n visited queue).2.2 queue := by
  intro n
  induction n with
  | zero => intro visited queue; exact List.Sublist.refl _
  | succ n ih =>
      intro visited queue
      cases queue with
      | nil => exact List.Sublist.refl _
      | cons hd rest =>
          obtain ⟨url, depth⟩ := hd
          unfold popBatch
          split
          · exact List.Sublist.cons _ (ih _ rest)
          · exact List.Sublist.cons _ (ih _ rest)

theorem processOne_fetched_le (links : String → String → List String)
    (md mp : Int) (visited : List String)
    (acc : List (String × (String × String)) × List (String × Nat))
    (item : (String × Nat) × Option (String × String)) :
    (processOne links md mp visited acc item).1.length ≤ acc.1.length + 1 := by
  unfold processOne
  split
  · omega
  · split
    · split
      · exact dictUpsert_length_le _ _ _
      · exact dictUpsert_length_le _ _ _
    · omega

theorem processFold_fetched_le (links : String → String → List String)
    (md mp : Int) (visited : List String) :
    ∀ (results : List ((String × Nat) × Option (String × String)))
      (acc : List (String × (String × String)) × List (String × Nat)),
      ((results.foldl (processOne links md mp visited) acc).1).length
        ≤ acc.1.length + results.length := by
  intro results
  induction results with
  | nil => intro acc; simp
  | cons item rest ih =>
      intro acc
      rw [List.foldl_cons]
      calc ((rest.foldl (processOne links md mp visited)
            (processOne links md mp visited acc item)).1).length
          ≤ (processOne links md mp visited acc item).1.length + rest.length := ih _
        _ ≤ acc.1.length + 1 + rest.length :=
            Nat.add_le_add_right (processOne_fetched_le links md mp visited acc item) _
        _ = acc.1.length + (item :: rest).length := by
            simp only [List.length_cons]
            omega

theorem linkFold_depth (mp : Int) (visited : List String) (depth : Nat)
    (fetched1 : List (String × (String × String))) :
    ∀ (ls : List String) (nls : List (String × Nat)),
      ∀ p ∈ ls.foldl (fun nls link =>
          if link ≠ "" ∧ ¬ link ∈ visited ∧ ((fetched1.length + nls.length : Int) < mp)
          then nls ++ [(link, depth + 1)] else nls) nls,
        p ∈ nls ∨ p.2 = depth + 1 := by
  intro ls
  induction ls with
  | nil => intro nls p hp; exact Or.inl hp
  | cons l ls ih =>
      intro nls p hp
      rw [List.foldl_cons] at hp
      rcases ih _ p hp with h | h
      · split at h
        · rcases List.mem_append.mp h with h2 | h2
          · exact Or.inl h2
          · right
            rw [List.mem_singleton.mp h2]
        · exact Or.inl h
      · exact Or.inr h

theorem processOne_links_depth (links : String → String → List String)
    (md mp : Int) (visited : List String)
    (acc : List (String × (String × String)) × List (String × Nat))
    (item : (String × Nat) × Option (String × String)) :
    ∀ p ∈ (processOne links md mp visited acc item).2,
      p ∈ acc.2 ∨ ((item.1.2 : Int) < md ∧ p.2 = item.1.2 + 1) := by
  intro p hp
  unfold processOne at hp
  split at hp
  · exact Or.inl hp
  · rename_i page hpage
    split at hp
    · split at hp
      · rename_i hcond
        rcases linkFold_depth mp visited item.1.2 (dictUpsert acc.1 item.1.1 page)
            (links item.1.1 page.1) acc.2 p hp with h | h
        · exact Or.inl h
        · exact Or.inr ⟨hcond.1, h⟩
      · exact Or.inl hp
    · exact Or.inl hp

theorem processFold_links_depth (links : String → String → List String)
    (md mp : Int) (visited : List String) :
    ∀ (results : List ((String × Nat) × Option (String × String)))
      (acc : List (String × (String × String)) × List (String × Nat)),
      ∀ p ∈ (results.foldl (processOne links md mp visited) acc).2,
        p ∈ acc.2 ∨ ∃ item ∈ results, ((item.1.2 : Int) < md ∧ p.2 = item.1.2 + 1) := by
  intro results
  induction results with
  | nil => intro acc p hp; exact Or.inl hp
  | cons item rest ih =>
      intro acc p hp
      rw [List.foldl_cons] at hp
      rcases ih _ p hp with h | ⟨item2, hitem2, h2⟩
      · rcases processOne_links_depth links md mp visited acc item p h with h2 | h2
        · exact Or.inl h2
        · exact Or.inr ⟨item, List.mem_cons_self item rest, h2⟩
      · exact Or.inr ⟨item2, List.mem_cons_of_mem item hitem2, h2⟩

/-- One loop iteration keeps the page count within `max_pages` (given
room for the whole batch) and keeps every queued and requested URL
within the depth budget. -/
theorem crawlStep_invariant (env : CrawlEnv) (md mp : Int) (st : CrawlState)
    (pop : List (String × Nat) × List String × List (String × Nat))
    (hf : (st.fetched.length : Int) ≤ mp)
    (hlen : (st.fetched.length : Int) + pop.1.length ≤ mp)
    (hb : ∀ p ∈ pop.1, (p.2 : Int) ≤ md)
    (hq2 : ∀ p ∈ pop.2.2, (p.2 : Int) ≤ md)
    (hr : ∀ p ∈ st.requests, (p.2 : Int) ≤ md) :
    ((crawlStep env md mp st pop).fetched.length : Int) ≤ mp
    ∧ (∀ p ∈ (crawlStep env md mp st pop).queue, (p.2 : Int) ≤ md)
    ∧ (∀ p ∈ (crawlStep env md mp st pop).requests, (p.2 : Int) ≤ md) := by
  unfold crawlStep
  split
  · exact ⟨hf, hq2, hr⟩
  · refine ⟨?_, ?_, ?_⟩
    · have hle := processFold_fetched_le env.links md mp pop.2.1
        (pop.1.map (fun p => (p, env.fetch p.1))) (st.fetched, [])
      simp only [List.length_map] at hle
      have h2 : ((((pop.1.map (fun p => (p, env.fetch p.1))).foldl
          (processOne env.links md mp pop.2.1) (st.fetched, [])).1.length : Int))
          ≤ (st.fetched.length : Int) + pop.1.length := by
        exact_mod_cast hle
      exact le_trans h2 hlen
    · intro p hp
      rcases List.mem_append.mp hp with h | h
      · exact hq2 p h
      · rcases processFold_links_depth env.links md mp pop.2.1
            (pop.1.map (fun p => (p, env.fetch p.1))) (st.fetched, []) p h
          with h2 | ⟨item, hitem, h2⟩
        · simp at h2
        · rcases List.mem_map.mp hitem with ⟨q, hqmem, hqeq⟩
          rw [← hqeq] at h2
          rw [h2.2]
          have h1 := h2.1
          omega
    · intro p hp
      rcases List.mem_append.mp hp with h | h
      · exact hr p h
      · exact hb p h

/-- The crawl loop preserves the page-count and depth bounds for any
number of iterations. -/
theorem crawlLoop_invariant (env : CrawlEnv) (skip : String → Bool)
    (mc : Nat) (mp md : Int) :
    ∀ (fuel : Nat) (st : CrawlState),
      ((st.fetched.length : Int) ≤ mp) →
      (∀ p ∈ st.queue, (p.2 : Int) ≤ md) →
      (∀ p ∈ st.requests, (p.2 : Int) ≤ md) →
      ((crawlLoop env skip mc mp md fuel st).fetched.length : Int) ≤ mp
      ∧ (∀ p ∈ (crawlLoop env skip mc mp md fuel st).requests, (p.2 : Int) ≤ md) := by
  intro fuel
  induction fuel with
  | zero => intro st hf hq hr; exact ⟨hf, hr⟩
  | succ fuel ih =>
      intro st hf hq hr
      unfold crawlLoop
      split
      · rename_i hguard
        have hkey := crawlStep_invariant env md mp st
          (popBatch skip (min mc (min st.queue.length (mp - st.fetched.length).toNat))
            st.visited st.queue)
          hf
          (by
            have hb1 := popBatch_length skip
              (min mc (min st.queue.length (mp - st.fetched.length).toNat))
              st.visited st.queue
            have hflt : (st.fetched.length : Int) < mp := hguard.2
            omega)
          (fun p hp => hq p (popBatch_mem skip _ st.visited st.queue p hp))
          (fun p hp => hq p ((popBatch_queue_sublist skip _ st.visited st.queue).subset hp))
          hr
        exact ih _ hkey.1 hkey.2.1 hkey.2.2
      · exact ⟨hf, hr⟩

/-- C9: with no per-spec overrides (`spec.max_pages`, `spec.max_depth`
unset), the crawler stores at most `max_pages` pages — the count the
code itself logs as "pages fetched" — hence returns at most
`max_pages` documents, and every URL it hands to the fetcher was
queued within the depth budget: links are only enqueued at
`depth + 1` when `depth < max_depth`, so no page beyond the depth
limit is ever requested. -/
theorem crawl_http_docs_bounds (env : CrawlEnv) (spec : CrawlHTTP)
    (max_pages max_depth : Int) (max_concurrent fuel : Nat)
    (hmp : spec.max_pages = none) (hmd : spec.max_depth = none)
    (h0p : 0 ≤ max_pages) (h0d : 0 ≤ max_depth) :
    ((crawl_http_docs env spec max_pages max_depth max_concurrent fuel).length : Int) ≤ max_pages
    ∧ (((crawl_http_state env spec max_pages max_depth max_concurrent fuel).fetched.length : Int)
        ≤ max_pages)
    ∧ ∀ p ∈ (crawl_http_state env spec max_pages max_depth max_concurrent fuel).requests,
        (p.2 : Int) ≤ max_depth := by
  have hepm : pyOrOptInt spec.max_pages max_pages = max_pages := by rw [hmp]; rfl
  have hemd : pyOrOptInt spec.max_depth max_depth = max_depth := by rw [hmd]; rfl
  have hstate : crawl_http_state env spec max_pages max_depth max_concurrent fuel
      = crawlLoop env
          (fun url => should_skip_url env.parse env.research url spec.allowed_domains
            (spec.allowed_url_prefixes.getD []) (spec.exclude_url_patterns.getD []))
          max_concurrent (pyOrOptInt spec.max_pages max_pages)
          (pyOrOptInt spec.max_depth max_depth) fuel
          { visited := [], fetched := [],
            queue := spec.start_urls.map (fun u => (u, 0)), requests := [] } := rfl
  have hinv := crawlLoop_invariant env
    (fun url => should_skip_url env.parse env.research url spec.allowed_domains
      (spec.allowed_url_prefixes.getD []) (spec.exclude_url_patterns.getD []))
    max_concurrent (pyOrOptInt spec.max_pages max_pages) (pyOrOptInt spec.max_depth max_depth)
    fuel
    { visited := [], fetched := [], queue := spec.start_urls.map (fun u => (u, 0)),
      requests := [] }
    (by rw [hepm]; simpa using h0p)
    (by
      intro p hp
      rw [hemd]
      rcases List.mem_map.mp hp with ⟨u, hu, hue⟩
      rw [← hue]
      simpa using h0d)
    (by intro p hp; simp at hp)
  refine ⟨?_, ?_, ?_⟩
  · unfold crawl_http_docs
    rw [List.length_map, hstate]
    exact le_of_le_of_eq hinv.1 hepm
  · rw [hstate]
    exact le_of_le_of_eq hinv.1 hepm
  · rw [hstate]
    intro p hp
    exact le_of_le_of_eq (hinv.2 p hp) hemd

/-- C9 witness: a concrete crawl — one start URL whose page links to
further URLs at the next depth — respects both limits. -/
theorem crawl_http_docs_bounds_witness :
    ((crawl_http_docs c9env c9spec 5 1 8 30).length : Int) ≤ 5
    ∧ (((crawl_http_state c9env c9spec 5 1 8 30).fetched.length : Int) ≤ 5)
    ∧ ∀ p ∈ (crawl_http_state c9env c9spec 5 1 8 30).requests, (p.2 : Int) ≤ 1 :=
  crawl_http_docs_bounds c9env c9spec 5 1 8 30 rfl rfl (by omega) (by omega)

/-! ## C1: idempotent re-ingestion -/

theorem document_to_chunks_eq_ok (doc : IngestDocument) (dv dp dver dst : Option String)
    (mc oc : Int) (h1 : 0 < mc) (h2 : 0 ≤ oc) (h3 : oc < mc) :
    document_to_chunks doc dv dp dver dst mc oc
      = Except.ok (docChunks doc dv dp dver dst mc oc) := by
  unfold document_to_chunks chunk_text
  rw [if_neg (by omega), if_neg (by omega), if_neg (by omega)]
  rfl

theorem mapM_ok {α β : Type} (f : α → Except String β) (g : α → β) :
    ∀ (l : List α), (∀ a ∈ l, f a = Except.ok (g a)) → l.mapM f = Except.ok (l.map g) := by
  intro l
  induction l with
  | nil => intro _; rfl
  | cons a l ih =>
      intro h
      rw [List.mapM_cons, h a (List.mem_cons_self a l),
        ih (fun x hx => h x (List.mem_cons_of_mem a hx))]
      rfl

/-- With valid chunking parameters, `ingest_documents` reduces to
`ingest_core` on the derived chunk records. -/
theorem ingest_documents_eq (st : StoreState)
    (embed : Nat → List String → Option (List (List Rat)))
    (documents : List IngestDocument) (dv dp dver dst : Option String)
    (mc oc : Int) (bs : Nat) (inc skip dry : Bool) (ebs : Nat)
    (h1 : 0 < mc) (h2 : 0 ≤ oc) (h3 : oc < mc) :
    ingest_documents st embed documents dv dp dver dst mc oc bs inc skip dry ebs
      = Except.ok (ingest_core st embed documents.length
          (allChunks documents dv dp dver dst mc oc) bs inc skip dry ebs) := by
  unfold ingest_documents
  rw [mapM_ok _ (fun doc => docChunks doc dv dp dver dst mc oc) documents
    (fun doc _ => document_to_chunks_eq_ok doc dv dp dver dst mc oc h1 h2 h3)]
  rfl

theorem foldl_upsert_cases (pts : List QdrantPoint) :
    ∀ (q : String → Option QdrantPoint) (x : String),
      (pts.foldl qdrantUpd q) x = q x
      ∨ ∃ p ∈ pts, p.id = x ∧ (pts.foldl qdrantUpd q) x = some p := by
  induction pts with
  | nil => intro q x; exact Or.inl rfl
  | cons p pts ih =>
      intro q x
      rw [List.foldl_cons]
      rcases ih (qdrantUpd q p) x with h | ⟨p2, hp2, hid, heq⟩
      · by_cases hx : x = p.id
        · right
          refine ⟨p, List.mem_cons_self p pts, hx.symm, ?_⟩
          rw [h]
          simp [qdrantUpd, hx]
        · left
          rw [h]
          simp [qdrantUpd, hx]
      · exact Or.inr ⟨p2, List.mem_cons_of_mem p hp2, hid, heq⟩

theorem foldl_upsert_covers (pts : List QdrantPoint) :
    ∀ (q : String → Option QdrantPoint), ∀ p0 ∈ pts,
      ∃ p ∈ pts, p.id = p0.id ∧ (pts.foldl qdrantUpd q) p0.id = some p := by
  induction pts with
  | nil => intro q p0 h; exact absurd h (List.not_mem_nil p0)
  | cons p pts ih =>
      intro q p0 hp0
      rw [List.foldl_cons]
      rcases List.mem_cons.mp hp0 with h | h
      · subst h
        rcases foldl_upsert_cases pts (qdrantUpd q p0) p0.id with h | ⟨p2, hp2, hid, heq⟩
        · refine ⟨p0, List.mem_cons_self p0 pts, rfl, ?_⟩
          rw [h]
          simp [qdrantUpd]
        · exact ⟨p2, List.mem_cons_of_mem p0 hp2, hid, heq⟩
      · rcases ih (qdrantUpd q p) p0 h with ⟨p2, hp2, hid, heq⟩
        exact ⟨p2, List.mem_cons_of_mem p hp2, hid, heq⟩

/-- The qdrant side of one write-batch: every id either keeps its
previous point or now holds the freshly built point of some chunk of
the batch. -/
theorem processWriteBatch_qdrant_cases
    (embed : Nat → List String → Option (List (List Rat))) (ebs : Nat)
    (f : String → List Rat) (hebs : 0 < ebs)
    (hall : ∀ i bt, embed i bt = some (bt.map f))
    (acc : StoreState × Nat × Nat) (batch : List ChunkRecord) (x : String) :
    (processWriteBatch embed ebs acc batch).1.qdrant x = acc.1.qdrant x
    ∨ ∃ c2 ∈ batch, c2.chunk_id = x ∧
        (processWriteBatch embed ebs acc batch).1.qdrant x
          = some (QdrantPoint.mk c2.chunk_id (f c2.text) (mkPayload c2)) := by
  have hq : (processWriteBatch embed ebs acc batch).1.qdrant
      = (writeBatchPoints embed ebs batch).foldl qdrantUpd acc.1.qdrant := rfl
  rw [hq, writeBatchPoints_success embed ebs f hebs hall batch]
  rcases foldl_upsert_cases
      (batch.map (fun c => QdrantPoint.mk c.chunk_id (f c.text) (mkPayload c)))
      acc.1.qdrant x with h | ⟨p, hp, hid, heq⟩
  · exact Or.inl h
  · right
    rcases List.mem_map.mp hp with ⟨c2, hc2, hpc⟩
    subst hpc
    exact ⟨c2, hc2, hid, heq⟩

/-- The qdrant side of one write-batch: every chunk of the batch ends
up stored under its id (possibly as another same-id chunk's point). -/
theorem processWriteBatch_qdrant_covers
    (embed : Nat → List String → Option (List (List Rat))) (ebs : Nat)
    (f : String → List Rat) (hebs : 0 < ebs)
    (hall : ∀ i bt, embed i bt = some (bt.map f))
    (acc : StoreState × Nat × Nat) (batch : List ChunkRecord)
    (c : ChunkRecord) (hc : c ∈ batch) :
    ∃ c2 ∈ batch, c2.chunk_id = c.chunk_id ∧
      (processWriteBatch embed ebs acc batch).1.qdrant c.chunk_id
        = some (QdrantPoint.mk c2.chunk_id (f c2.text) (mkPayload c2)) := by
  have hq : (processWriteBatch embed ebs acc batch).1.qdrant
      = (writeBatchPoints embed ebs batch).foldl qdrantUpd acc.1.qdrant := rfl
  rw [hq, writeBatchPoints_success embed ebs f hebs hall batch]
  rcases foldl_upsert_covers
      (batch.map (fun c => QdrantPoint.mk c.chunk_id (f c.text) (mkPayload c)))
      acc.1.qdrant (QdrantPoint.mk c.chunk_id (f c.text) (mkPayload c))
      (List.mem_map_of_mem _ hc) with ⟨p, hp, hid, heq⟩
  rcases List.mem_map.mp hp with ⟨c2, hc2, hpc⟩
  subst hpc
  exact ⟨c2, hc2, hid, heq⟩

/-- Write-loop version of `processWriteBatch_qdrant_cases`. -/
theorem writeLoop_qdrant_cases
    (embed : Nat → List String → Option (List (List Rat))) (ebs : Nat)
    (f : String → List Rat) (hebs : 0 < ebs)
    (hall : ∀ i bt, embed i bt = some (bt.map f)) :
    ∀ (batches : List (List ChunkRecord)) (acc : StoreState × Nat × Nat) (x : String),
      (batches.foldl (processWriteBatch embed ebs) acc).1.qdrant x = acc.1.qdrant x
      ∨ ∃ c2, (∃ b ∈ batches, c2 ∈ b) ∧ c2.chunk_id = x ∧
          (batches.foldl (processWriteBatch embed ebs) acc).1.qdrant x
            = some (QdrantPoint.mk c2.chunk_id (f c2.text) (mkPayload c2)) := by
  intro batches
  induction batches with
  | nil => intro acc x; exact Or.inl rfl
  | cons b bs ih =>
      intro acc x
      rw [List.foldl_cons]
      rcases ih (processWriteBatch embed ebs acc b) x with h | ⟨c2, ⟨b2, hb2, hc2⟩, hid, heq⟩
      · rw [h]
        rcases processWriteBatch_qdrant_cases embed ebs f hebs hall acc b x with
          h2 | ⟨c2, hc2, hid, heq⟩
        · exact Or.inl h2
        · exact Or.inr ⟨c2, ⟨b, List.mem_cons_self b bs, hc2⟩, hid, heq⟩
      · exact Or.inr ⟨c2, ⟨b2, List.mem_cons_of_mem b hb2, hc2⟩, hid, heq⟩

/-- Write-loop version of `processWriteBatch_qdrant_covers`. -/
theorem writeLoop_qdrant_covers
    (embed : Nat → List String → Option (List (List Rat))) (ebs : Nat)
    (f : String → List Rat) (hebs : 0 < ebs)
    (hall : ∀ i bt, embed i bt = some (bt.map f)) :
    ∀ (batches : List (List ChunkRecord)) (acc : StoreState × Nat × Nat),
      ∀ b ∈ batches, ∀ c ∈ b,
      ∃ c2, (∃ b2 ∈ batches, c2 ∈ b2) ∧ c2.chunk_id = c.chunk_id ∧
        (batches.foldl (processWriteBatch embed ebs) acc).1.qdrant c.chunk_id
          = some (QdrantPoint.mk c2.chunk_id (f c2.text) (mkPayload c2)) := by
  intro batches
  induction batches with
  | nil => intro acc b hb; exact absurd hb (List.not_mem_nil b)
  | cons b0 bs ih =>
      intro acc b hb c hc
      rw [List.foldl_cons]
      rcases List.mem_cons.mp hb with h | h
      · subst h
        rcases processWriteBatch_qdrant_covers embed ebs f hebs hall acc b c hc with
          ⟨c2, hc2, hid, heq⟩
        rcases writeLoop_qdrant_cases embed ebs f hebs hall bs
            (processWriteBatch embed ebs acc b) c.chunk_id with h2 | ⟨c3, ⟨b3, hb3, hc3⟩, hid3, heq3⟩
        · rw [h2, heq]
          exact ⟨c2, ⟨b, List.mem_cons_self b bs, hc2⟩, hid, rfl⟩
        · exact ⟨c3, ⟨b3, List.mem_cons_of_mem b hb3, hc3⟩, hid3, heq3⟩
      · rcases ih (processWriteBatch embed ebs acc b0) b h c hc with
          ⟨c2, ⟨b2, hb2, hc2⟩, hid, heq⟩
        exact ⟨c2, ⟨b2, List.mem_cons_of_mem b0 hb2, hc2⟩, hid, heq⟩

theorem chunkFold_eq (st : StoreState) :
    ∀ (l : List ChunkRecord) (acc : Nat × List ChunkRecord),
      l.foldl (fun acc2 c =>
          if chunkMatches st c then (acc2.1 + 1, acc2.2) else (acc2.1, acc2.2 ++ [c])) acc
        = (acc.1 + l.countP (chunkMatches st),
           acc.2 ++ l.filter (fun c => !(chunkMatches st c))) := by
  intro l
  induction l with
  | nil => intro acc; simp
  | cons c l ih =>
      intro acc
      rw [List.foldl_cons]
      by_cases h : chunkMatches st c
      · rw [if_pos h, ih]
        simp [List.countP_cons, List.filter_cons, h]
        omega
      · rw [if_neg h, ih]
        simp [List.countP_cons, List.filter_cons, h]

/-- The blocked incremental pass with `skip_unchanged` is the simple
count-and-filter over `chunkMatches`. -/
theorem incrementalPass_true_eq (st : StoreState) (chunks : List ChunkRecord) :
    incrementalPass st chunks true
      = (chunks.countP (chunkMatches st),
         chunks.filter (fun c => !(chunkMatches st c))) := by
  unfold incrementalPass
  have hblock : ∀ (block : List ChunkRecord) (acc : Nat × List ChunkRecord),
      block.foldl (fun acc2 c =>
        if true = true then
          match get_payloads st (block.map (fun c => c.chunk_id)) c.chunk_id with
          | some payload =>
              if payload.chunk_hash = c.chunk_hash then (acc2.1 + 1, acc2.2)
              else (acc2.1, acc2.2 ++ [c])
          | none => (acc2.1, acc2.2 ++ [c])
        else (acc2.1, acc2.2 ++ [c])) acc
      = block.foldl (fun acc2 c =>
          if chunkMatches st c then (acc2.1 + 1, acc2.2) else (acc2.1, acc2.2 ++ [c])) acc := by
    intro block acc
    apply List.foldl_ext
    intro acc2 c hc
    have hmem : c.chunk_id ∈ block.map (fun c => c.chunk_id) := List.mem_map_of_mem _ hc
    rw [if_pos rfl]
    unfold get_payloads
    rw [if_pos hmem]
    unfold chunkMatches
    cases hq : st.qdrant c.chunk_id with
    | none => simp
    | some p =>
        by_cases hh : p.payload.chunk_hash = c.chunk_hash
        · simp [hh]
        · simp [hh]
  calc (chunksOf 256 chunks).foldl (fun acc block =>
        block.foldl (fun acc2 c =>
          if true = true then
            match get_payloads st (block.map (fun c => c.chunk_id)) c.chunk_id with
            | some payload =>
                if payload.chunk_hash = c.chunk_hash then (acc2.1 + 1, acc2.2)
                else (acc2.1, acc2.2 ++ [c])
            | none => (acc2.1, acc2.2 ++ [c])
          else (acc2.1, acc2.2 ++ [c])) acc) (0, [])
      = (chunksOf 256 chunks).foldl (fun acc block =>
          block.foldl (fun acc2 c =>
            if chunkMatches st c then (acc2.1 + 1, acc2.2) else (acc2.1, acc2.2 ++ [c])) acc)
          (0, []) := by
        apply List.foldl_ext
        intro acc block _
        exact hblock block acc
    _ = ((chunksOf 256 chunks).flatten).foldl (fun acc2 c =>
          if chunkMatches st c then (acc2.1 + 1, acc2.2) else (acc2.1, acc2.2 ++ [c])) (0, []) := by
        rw [List.foldl_flatten]
    _ = chunks.foldl (fun acc2 c =>
          if chunkMatches st c then (acc2.1 + 1, acc2.2) else (acc2.1, acc2.2 ++ [c])) (0, []) := by
        rw [chunksOf_flatten 256 (by omega) chunks]
    _ = (chunks.countP (chunkMatches st), chunks.filter (fun c => !(chunkMatches st c))) := by
        rw [chunkFold_eq]
        simp

/-- When every chunk matches the store, the skip split skips them all. -/
theorem skipSplit_all_matched (st : StoreState) (chunks : List ChunkRecord)
    (h : ∀ c ∈ chunks, chunkMatches st c = true) :
    skipSplit st chunks true true = (chunks.length, []) := by
  unfold skipSplit
  rw [if_pos rfl, incrementalPass_true_eq]
  rw [List.countP_eq_length.mpr h,
    List.filter_eq_nil_iff.mpr (fun c hc => by simp [h c hc])]

theorem chunkMatches_congr (st st2 : StoreState) (c : ChunkRecord)
    (h : st2.qdrant c.chunk_id = st.qdrant c.chunk_id) :
    chunkMatches st2 c = chunkMatches st c := by
  unfold chunkMatches
  rw [h]

/-- C1: against the store state left by a first fully successful
incremental run (all embedding batches succeeded) on the same document
list, a second incremental run with `skip_unchanged` skips every chunk
(`skipped = chunks`, `updated = 0`) and leaves the store untouched —
provided chunk ids are collision-free on this corpus (the data-model
invariant of spec section 3). -/
theorem ingest_documents_idempotent (st0 : StoreState)
    (embed1 embed2 : Nat → List String → Option (List (List Rat)))
    (f : String → List Rat) (documents : List IngestDocument)
    (dv dp dver dst : Option String) (mc oc : Int) (bs ebs : Nat)
    (h1 : 0 < mc) (h2 : 0 ≤ oc) (h3 : oc < mc) (hbs : 0 < bs) (hebs : 0 < ebs)
    (hall : ∀ i bt, embed1 i bt = some (bt.map f))
    (hcf : ∀ c ∈ allChunks documents dv dp dver dst mc oc,
           ∀ c2 ∈ allChunks documents dv dp dver dst mc oc,
             c.chunk_id = c2.chunk_id → c.chunk_hash = c2.chunk_hash) :
    ∃ res1 st1 res2,
      ingest_documents st0 embed1 documents dv dp dver dst mc oc bs true true false ebs
        = Except.ok (res1, st1)
      ∧ ingest_documents st1 embed2 documents dv dp dver dst mc oc bs true true false ebs
        = Except.ok (res2, st1)
      ∧ res2.skipped = res2.chunks ∧ res2.updated = 0 := by
  have hrw1 := ingest_documents_eq st0 embed1 documents dv dp dver dst mc oc bs
    true true false ebs h1 h2 h3
  set chunks := allChunks documents dv dp dver dst mc oc with hchunks
  by_cases hnil : chunks = []
  · refine ⟨⟨documents.length, 0, 0, 0, 0⟩, st0, ⟨documents.length, 0, 0, 0, 0⟩, ?_, ?_, rfl, rfl⟩
    · rw [hrw1]
      unfold ingest_core
      rw [if_pos hnil]
    · rw [ingest_documents_eq st0 embed2 documents dv dp dver dst mc oc bs
        true true false ebs h1 h2 h3]
      unfold ingest_core
      rw [if_pos hnil]
  · -- the state after run 1, by cases on whether anything was written
    have hmatch1 : ∀ st1 : StoreState,
        (∀ c ∈ chunks, chunkMatches st1 c = true) →
        ingest_documents st1 embed2 documents dv dp dver dst mc oc bs true true false ebs
          = Except.ok (⟨documents.length, chunks.length, 0, chunks.length, 0⟩, st1) := by
      intro st1 hm
      rw [ingest_documents_eq st1 embed2 documents dv dp dver dst mc oc bs
        true true false ebs h1 h2 h3]
      unfold ingest_core
      rw [if_neg hnil]
      rw [skipSplit_all_matched st1 chunks hm]
      simp
    by_cases htp : (skipSplit st0 chunks true true).2 = []
    · -- nothing to write: everything already matched st0
      have hm0 : ∀ c ∈ chunks, chunkMatches st0 c = true := by
        intro c hc
        have hthis := htp
        unfold skipSplit at hthis
        rw [if_pos rfl, incrementalPass_true_eq] at hthis
        have hfil := List.filter_eq_nil_iff.mp hthis c hc
        simpa using hfil
      refine ⟨⟨documents.length, chunks.length, 0, (skipSplit st0 chunks true true).1, 0⟩, st0,
        ⟨documents.length, chunks.length, 0, chunks.length, 0⟩, ?_, hmatch1 st0 hm0, rfl, rfl⟩
      rw [hrw1]
      unfold ingest_core
      rw [if_neg hnil, if_neg (by simp), if_pos htp]
    · -- some chunks written; the final store holds a matching payload
      -- under every chunk id
      have htpmem : ∀ c, c ∈ (skipSplit st0 chunks true true).2 ↔
          (c ∈ chunks ∧ ¬ chunkMatches st0 c = true) := by
        intro c
        unfold skipSplit
        rw [if_pos rfl, incrementalPass_true_eq]
        constructor
        · intro hc
          have hm := List.mem_filter.mp hc
          exact ⟨hm.1, by simpa using hm.2⟩
        · intro hc
          exact List.mem_filter.mpr ⟨hc.1, by simpa using hc.2⟩
      have hflat : (chunksOf bs (skipSplit st0 chunks true true).2).flatten
          = (skipSplit st0 chunks true true).2 :=
        chunksOf_flatten bs hbs _
      have hm1 : ∀ c ∈ chunks, chunkMatches
          ((chunksOf bs (skipSplit st0 chunks true true).2).foldl
            (processWriteBatch embed1 ebs) (st0, 0, 0)).1 c = true := by
        intro c hc
        by_cases hm0 : chunkMatches st0 c = true
        · rcases writeLoop_qdrant_cases embed1 ebs f hebs hall
              (chunksOf bs (skipSplit st0 chunks true true).2) (st0, 0, 0)
              c.chunk_id with h | ⟨c2, ⟨b2, hb2, hc2⟩, hid, heq⟩
          · rw [chunkMatches_congr st0 _ c h]
            exact hm0
          · have hc2chunks : c2 ∈ chunks := by
              have : c2 ∈ (skipSplit st0 chunks true true).2 := by
                rw [← hflat]
                exact List.mem_flatten.mpr ⟨b2, hb2, hc2⟩
              exact ((htpmem c2).mp this).1
            have hhash : c2.chunk_hash = c.chunk_hash := hcf c2 hc2chunks c hc hid
            unfold chunkMatches
            rw [heq]
            simp [mkPayload, hhash]
        · -- c was queued for processing, hence written
          have hctp : c ∈ (skipSplit st0 chunks true true).2 :=
            (htpmem c).mpr ⟨hc, hm0⟩
          rcases List.mem_flatten.mp (by rw [hflat]; exact hctp) with ⟨b, hb, hcb⟩
          rcases writeLoop_qdrant_covers embed1 ebs f hebs hall
              (chunksOf bs (skipSplit st0 chunks true true).2) (st0, 0, 0)
              b hb c hcb with ⟨c2, ⟨b2, hb2, hc2⟩, hid, heq⟩
          have hc2chunks : c2 ∈ chunks := by
            have : c2 ∈ (skipSplit st0 chunks true true).2 := by
              rw [← hflat]
              exact List.mem_flatten.mpr ⟨b2, hb2, hc2⟩
            exact ((htpmem c2).mp this).1
          have hhash : c2.chunk_hash = c.chunk_hash := hcf c2 hc2chunks c hc hid
          unfold chunkMatches
          rw [heq]
          simp [mkPayload, hhash]
      refine ⟨⟨documents.length, chunks.length,
          (runWriteLoop embed1 ebs st0 (chunksOf bs (skipSplit st0 chunks true true).2)).2.1,
          (skipSplit st0 chunks true true).1,
          (runWriteLoop embed1 ebs st0 (chunksOf bs (skipSplit st0 chunks true true).2)).2.2⟩,
        (runWriteLoop embed1 ebs st0 (chunksOf bs (skipSplit st0 chunks true true).2)).1,
        ⟨documents.length, chunks.length, 0, chunks.length, 0⟩, ?_,
        hmatch1 _ hm1, rfl, rfl⟩
      rw [hrw1]
      unfold ingest_core
      rw [if_neg hnil, if_neg (by simp), if_neg htp]

set_option maxRecDepth 10000 in
/-- C1 witness: a concrete fully successful first run on one document
is idempotent for any second-run embedding oracle. -/
theorem ingest_documents_idempotent_witness :
    ∃ res1 st1 res2,
      ingest_documents ⟨fun _ => none, fun _ => none⟩
          (fun _ bt => some (bt.map (fun t => [(t.length : Rat)]))) [c2doc]
          none none none none 100 0 64 true true false 10
        = Except.ok (res1, st1)
      ∧ ingest_documents st1 (fun _ _ => none) [c2doc]
          none none none none 100 0 64 true true false 10
        = Except.ok (res2, st1)
      ∧ res2.skipped = res2.chunks ∧ res2.updated = 0 := by
  have hcf : ∀ c ∈ allChunks [c2doc] none none none none 100 0,
      ∀ c2 ∈ allChunks [c2doc] none none none none 100 0,
        c.chunk_id = c2.chunk_id → c.chunk_hash = c2.chunk_hash := by
    have hL : allChunks [c2doc] none none none none 100 0
        = [mkChunkRecord (resolved_doc_id c2doc) "t" "official_docs" "u"
            none none none 0 "hello"] := rfl
    rw [hL]
    intro c hc c2 hc2 _
    rw [List.mem_singleton.mp hc, List.mem_singleton.mp hc2]
  have w := ingest_documents_idempotent ⟨fun _ => none, fun _ => none⟩
    (fun _ bt => some (bt.map (fun t => [(t.length : Rat)]))) (fun _ _ => none)
    (fun t => [(t.length : Rat)]) [c2doc] none none none none 100 0 64 10
    (by omega) (by omega) (by omega) (by omega) (by omega)
    (fun _ _ => rfl) hcf
  exact w


end RagGateway
